import Mathlib

/-!
# Verification of the task-queue admission/dispatch/timeout/cancellation engine

Shallow embedding of `src/index.ts` (the `Queue` function and its helpers).

Modelling conventions:
* The queue runs on a single-threaded event loop.  Each public call
  (`add`, a handle's `cancel`), each timer callback, and each body-promise
  reaction is one atomic transition (`stepEv`): the synchronous code of the
  turn plus the promise-reaction microtasks it schedules (the `.finally`
  handler attached in `add`, which performs `cleanup` and `processQueue`).
* A promise settles at most once; a second `resolve`/`reject` is a no-op.
  This is captured by `settleMap`/`settleF`, which record the first outcome
  per job id and ignore later ones.
* The caller-supplied body `fn` is opaque: it either returns a promise that
  is still pending when `fn` returns (its settlement arrives later as a
  separate `Ev.bodySettles` event, which may fire even after the job was
  cancelled or timed out, exactly as a promise `.then` reaction would), or
  it throws synchronously, which is the `try/catch` path of `processQueue`.
* Notification subscribers are passive observers: `events.emit` appends to
  an event log (`events` field, newest first).  The separate `addX` model
  below covers subscribers whose callbacks throw.
* Wall-clock time is abstracted: `Date.now()` is rendered as `0` (none of
  the claims depends on timestamp values), and a timer that is armed may
  fire at any later turn, which models the elapse of the configured delay.
* Ghost instrumentation fields (`registry`, `startedLog`, `bodyDone`,
  `hookCalls`, `events`) record history only; the operational fields are
  exactly the closure state of `Queue`: `lastId`, `waitingJobs`,
  `inProgressJobs`, `timeouts`, `processing`, plus the per-job promise
  state `settled`.
-/

namespace TaskQueue

/-- Behaviour of a caller-supplied body when invoked at dispatch:
either it returns a still-pending promise (settles later via
`Ev.bodySettles`), or it raises synchronously (`processQueue`'s catch). -/
inductive FnB where
  | pending
  | throwsSync
deriving DecidableEq, Repr

/-- Terminal outcome recorded on a job's promise (§7 of the spec):
success value, pass-through failure, or one of the queue error kinds. -/
inductive Outcome where
  | success
  | failure
  | queueTimeout (addedToTheQueueAt : Nat)
  | jobTimeout
  | jobCancelled
deriving DecidableEq, Repr

/-- Which timer occupies a job's slot of the `timeouts` map. -/
inductive TimerKind where
  | queueT
  | execT
deriving DecidableEq, Repr

/-- The `Job` record of `src/index.ts` (the `fn` closure is abstracted to
its behaviour, `onCancel` to its presence). -/
structure JobRec where
  id : Nat
  fnB : FnB
  hasHook : Bool
  addedToTheQueueAt : Nat
  startedProcessingAt : Option Nat
deriving DecidableEq, Repr

/-- Notification topics with their payloads (`events.emit` calls).
The opaque `err` value of `job.failure` is elided. -/
inductive QEvent where
  | queueFull (waitingCount inProgressCount : Nat)
  | queueNew (id inProgressCount waitingCount : Nat)
  | queueTimeoutEv (id addedToTheQueueAt : Nat)
  | jobStarted (id addedToTheQueueAt : Nat)
  | jobSuccess (id : Nat) (startedProcessingAt : Option Nat)
  | jobFailure (id : Nat) (startedProcessingAt : Option Nat)
  | jobTimeoutEv (id : Nat) (startedProcessingAt : Option Nat)
  | jobCancelEv (id addedToTheQueueAt : Nat)
deriving DecidableEq, Repr

/-- The closure state of one `Queue(...)` instance, plus per-job promise
state and ghost history fields. -/
structure QState where
  queueTimeout : Nat
  executionTimeout : Nat
  concurrency : Nat
  maxTaskCount : Nat
  lastId : Nat
  waitingJobs : List JobRec
  inProgressJobs : List JobRec
  timeouts : List (Nat × TimerKind)
  processing : Bool
  settled : List (Nat × Outcome)
  registry : List JobRec
  startedLog : List Nat
  bodyDone : List Nat
  hookCalls : List Nat
  events : List QEvent
deriving DecidableEq, Repr

def waitingIds (s : QState) : List Nat := s.waitingJobs.map JobRec.id

def inProgressIds (s : QState) : List Nat := s.inProgressJobs.map JobRec.id

def emitE (e : QEvent) (s : QState) : QState := { s with events := e :: s.events }

/-- First (and, by construction, only) recorded settlement of job `id`. -/
def settleLookup (s : QState) (id : Nat) : Option Outcome :=
  (s.settled.find? (fun p => p.1 == id)).map Prod.snd

def isSettled (s : QState) (id : Nat) : Bool := (settleLookup s id).isSome

/-- Source `removeTimeout`: if the map has the key, clear the timer and
delete the entry. -/
def removeTimeout (id : Nat) (s : QState) : QState :=
  if s.timeouts.any (fun p => p.1 == id) then
    { s with timeouts := s.timeouts.filter (fun p => p.1 != id) }
  else s

/-- Map write `timeouts.set(id, timer)`: it replaces any prior timer slot. -/
def setTimer (id : Nat) (k : TimerKind) (s : QState) : QState :=
  { s with timeouts := (id, k) :: s.timeouts.filter (fun p => p.1 != id) }

/-- Source `setUpQueueTimeout`: arm the queue-wait timer for `id`. -/
def setUpQueueTimeout (id : Nat) (s : QState) : QState := setTimer id TimerKind.queueT s

/-- Source `setUpProcessingTimeout`: arm the execution timer for `id`. -/
def setUpProcessingTimeout (id : Nat) (s : QState) : QState := setTimer id TimerKind.execT s

/-- Source `removeJob`: find by id in `waitingJobs`, else in `inProgressJobs`,
and splice the first match out. -/
def removeJob (id : Nat) (s : QState) : QState :=
  if s.waitingJobs.any (fun j => j.id == id) then
    { s with waitingJobs := s.waitingJobs.eraseP (fun j => j.id == id) }
  else
    { s with inProgressJobs := s.inProgressJobs.eraseP (fun j => j.id == id) }

/-- Source `cleanup`: `removeTimeout(job.id); removeJob(job)`. -/
def cleanup (id : Nat) (s : QState) : QState := removeJob id (removeTimeout id s)

/-- A `resolve`/`reject` call on the inner promise: records the first outcome for
`id`; a later call is a no-op (promise settle-once semantics). -/
def settleMap (id : Nat) (o : Outcome) (s : QState) : QState :=
  if isSettled s id then s else { s with settled := (id, o) :: s.settled }

/-- Assignment `job.startedProcessingAt = Date.now()` (the record is shared between
the containers and the ghost registry), plus the ghost promotion log. -/
def setStarted (id : Nat) (s : QState) : QState :=
  { s with
    inProgressJobs := s.inProgressJobs.map
      (fun j => if j.id == id then { j with startedProcessingAt := some 0 } else j),
    registry := s.registry.map
      (fun j => if j.id == id then { j with startedProcessingAt := some 0 } else j),
    startedLog := s.startedLog ++ [id] }

/-- Shared prefix of one dispatch step of `processQueue`, before the `try`
block's emit (source order): shift the head off `waitingJobs`, set
`processing`, disarm the queue-wait timer, push into `inProgressJobs`, arm
the execution timer, stamp `startedProcessingAt`. -/
def promoteCore (jw : JobRec) (rest : List JobRec) (s : QState) : QState :=
  let s1 : QState := { s with waitingJobs := rest, processing := true }
  let s2 := removeTimeout jw.id s1
  let s3 : QState := { s2 with inProgressJobs := s2.inProgressJobs ++ [jw] }
  let s4 := setUpProcessingTimeout jw.id s3
  setStarted jw.id s4

/-- One successful dispatch step of `processQueue`: the shared prefix,
emit `job.started`, invoke the body (which stays pending), reset
`processing`. -/
def promote (jw : JobRec) (rest : List JobRec) (s : QState) : QState :=
  { emitE (QEvent.jobStarted jw.id jw.addedToTheQueueAt) (promoteCore jw rest s) with
    processing := false }

/-- The `catch` path of `processQueue`: the body threw synchronously after
`job.started` was emitted, so emit `job.failure`, reject the handle with
the raised error (pass-through) and clean the job up, then reset
`processing`. -/
def promoteFail (jw : JobRec) (rest : List JobRec) (s : QState) : QState :=
  let s6 := emitE (QEvent.jobStarted jw.id jw.addedToTheQueueAt) (promoteCore jw rest s)
  let s7 := emitE (QEvent.jobFailure jw.id (some 0)) s6
  let s8 := settleMap jw.id Outcome.failure s7
  let s9 := cleanup jw.id s8
  { s9 with processing := false }

/-- Source `processQueue`, fuelled.  One invocation promotes at most one job (the
source has no drain loop).  The recursion is not a loop of the dispatcher:
it is the `.finally` reaction (`cleanup` + `processQueue`) that the
rejection in the `catch` path schedules, which runs in the same turn.  A
fuel of `waitingJobs.length + 1` is always sufficient because every
recursive call first removes the head of `waitingJobs`. -/
def processQueueAux : Nat → QState → QState
  | 0, s => s
  | fuel + 1, s =>
    if s.inProgressJobs.length ≥ s.concurrency ∨ s.processing = true then s
    else
      match s.waitingJobs with
      | [] => s
      | jw :: rest =>
        match jw.fnB with
        | FnB.pending => promote jw rest s
        | FnB.throwsSync => processQueueAux fuel (cleanup jw.id (promoteFail jw rest s))

def processQueue (s : QState) : QState := processQueueAux (s.waitingJobs.length + 1) s

/-- A `resolve`/`reject` call together with the `.finally` reaction
(`cleanup(job); processQueue()`) it schedules when it is the settling
call; on an already-settled promise both are no-ops. -/
def settleF (id : Nat) (o : Outcome) (s : QState) : QState :=
  if isSettled s id then s
  else processQueue (cleanup id { s with settled := (id, o) :: s.settled })

def isFull (s : QState) : Bool :=
  decide (s.waitingJobs.length + s.inProgressJobs.length ≥ s.maxTaskCount)

/-- Result of `add`: the admitted job's id, or the already-rejected
`QueueFull` handle with the counts it carries. -/
inductive AddRes where
  | admitted (id : Nat)
  | rejectedFull (waitingCount inProgressCount : Nat)
deriving DecidableEq, Repr

/-- Source `add(fn, onCancel)`: admission check, `queue.full` short-circuit, or
job creation, queue-wait timer, push, `queue.new`, dispatch. -/
def add (fnB : FnB) (hasHook : Bool) (s : QState) : QState × AddRes :=
  if isFull s then
    let waitingCount := s.waitingJobs.length
    let inProgressCount := s.inProgressJobs.length
    (emitE (QEvent.queueFull waitingCount inProgressCount) s,
      AddRes.rejectedFull waitingCount inProgressCount)
  else
    let job : JobRec :=
      { id := s.lastId, fnB := fnB, hasHook := hasHook,
        addedToTheQueueAt := 0, startedProcessingAt := none }
    let s1 : QState := { s with lastId := s.lastId + 1, registry := s.registry ++ [job] }
    let s2 := setUpQueueTimeout job.id s1
    let s3 : QState := { s2 with waitingJobs := s2.waitingJobs ++ [job] }
    let s4 := emitE (QEvent.queueNew job.id s3.inProgressJobs.length s3.waitingJobs.length) s3
    (processQueue s4, AddRes.admitted job.id)

/-- The `Job.cancel` closure: `onCancel && onCancel(); cleanup(job)`.
Note: it is unconditional — no settled-state check. -/
def jobCancel (j : JobRec) (s : QState) : QState :=
  let s1 := if j.hasHook then { s with hookCalls := j.id :: s.hookCalls } else s
  cleanup j.id s1

/-- The `cancel` control of an admitted job's handle:
`job.cancel(); emit job.cancel; reject(new JobCancelled())`. -/
def handleCancel (j : JobRec) (s : QState) : QState :=
  let s1 := jobCancel j s
  let s2 := emitE (QEvent.jobCancelEv j.id j.addedToTheQueueAt) s1
  settleF j.id Outcome.jobCancelled s2

/-- The queue-wait timer callback of `setUpQueueTimeout`. -/
def queueTimerFire (j : JobRec) (s : QState) : QState :=
  let s1 := emitE (QEvent.queueTimeoutEv j.id j.addedToTheQueueAt) s
  let s2 := removeTimeout j.id s1
  settleF j.id (Outcome.queueTimeout j.addedToTheQueueAt) s2

/-- The execution timer callback of `setUpProcessingTimeout`. -/
def execTimerFire (j : JobRec) (s : QState) : QState :=
  let s1 := emitE (QEvent.jobTimeoutEv j.id j.startedProcessingAt) s
  let s2 := jobCancel j s1
  settleF j.id Outcome.jobTimeout s2

/-- The reaction `processJob` attaches to the body's promise with `.then`:
emit `job.success`/`job.failure`, clean up, settle, re-dispatch.  It runs
exactly once when the body's promise settles, regardless of whether the
job was cancelled or timed out in the meantime. -/
def bodyThen (j : JobRec) (ok : Bool) (s : QState) : QState :=
  let s0 : QState := { s with bodyDone := j.id :: s.bodyDone }
  let ev : QEvent :=
    if ok then QEvent.jobSuccess j.id j.startedProcessingAt
    else QEvent.jobFailure j.id j.startedProcessingAt
  let s1 := emitE ev s0
  let already := isSettled s1 j.id
  let s2 := cleanup j.id s1
  let s3 := settleMap j.id (if ok then Outcome.success else Outcome.failure) s2
  let s4 := processQueue s3
  if already then s4 else processQueue (cleanup j.id s4)

/-- The `cancel` control attached to a `QueueFull` handle:
`cancellable(Promise.reject(...), () => \x7b\x7d)` — the empty function. -/
def fullHandleCancel (s : QState) : QState := s

/-- The events the environment can inject: public calls, timer firings and
body-promise settlements. -/
inductive Ev where
  | add (fnB : FnB) (hasHook : Bool)
  | qFire (id : Nat)
  | eFire (id : Nat)
  | cancel (id : Nat)
  | bodySettles (id : Nat) (ok : Bool)
  | cancelFull
deriving DecidableEq, Repr

def findJob (s : QState) (id : Nat) : Option JobRec :=
  s.registry.find? (fun j => j.id == id)

/-- One atomic event-loop turn. Timer firings require the timer to be
armed; a body settlement requires the body to have been invoked (job
started, `pending` behaviour) and not to have settled before. -/
def stepEv (e : Ev) (s : QState) : QState :=
  match e with
  | Ev.add fnB hasHook => (add fnB hasHook s).1
  | Ev.qFire id =>
    if (id, TimerKind.queueT) ∈ s.timeouts then
      match findJob s id with
      | some j => queueTimerFire j s
      | none => s
    else s
  | Ev.eFire id =>
    if (id, TimerKind.execT) ∈ s.timeouts then
      match findJob s id with
      | some j => execTimerFire j s
      | none => s
    else s
  | Ev.cancel id =>
    match findJob s id with
    | some j => handleCancel j s
    | none => s
  | Ev.bodySettles id ok =>
    match findJob s id with
    | some j =>
      if j.fnB = FnB.pending ∧ id ∈ s.startedLog ∧ id ∉ s.bodyDone then bodyThen j ok s
      else s
    | none => s
  | Ev.cancelFull => fullHandleCancel s

/-- Constructor `Queue(...)` with its four options:
the freshly constructed instance. -/
def Queue (queueTimeout executionTimeout concurrency maxTaskCount : Nat) : QState :=
  { queueTimeout := queueTimeout, executionTimeout := executionTimeout,
    concurrency := concurrency, maxTaskCount := maxTaskCount,
    lastId := 0, waitingJobs := [], inProgressJobs := [], timeouts := [],
    processing := false, settled := [], registry := [], startedLog := [],
    bodyDone := [], hookCalls := [], events := [] }

def run (s : QState) (evs : List Ev) : QState := evs.foldl (fun t e => stepEv e t) s

/-- Snapshot returned by `stats()`. -/
structure QueueStats where
  total : Nat
  inProgress : Nat
  waiting : Nat
  full : Bool
deriving DecidableEq, Repr

def stats (s : QState) : QueueStats :=
  { total := s.waitingJobs.length + s.inProgressJobs.length,
    inProgress := s.inProgressJobs.length,
    waiting := s.waitingJobs.length,
    full := isFull s }

/-!
## Model with throwing notification subscribers

Node's `EventEmitter.emit` runs listeners synchronously, so an exception a
listener raises propagates to `emit`'s caller and skips the remaining
listeners.  `addX` re-traces `add` (and the `processQueue` it invokes) in
an exception monad where each topic may have a throwing subscriber.  An
exception raised inside the promise executor rejects the new job's promise
instead of escaping `add`; an exception raised while a microtask (a
`.finally` reaction) runs is an unhandled rejection invisible to the
caller, hence `swallowX`. -/

/-- Result of running a microtask whose exceptions are unhandled: the state
at the point where the exception aborted it, or the completed state. -/
def swallowX (r : Except QState QState) : QState :=
  match r with
  | Except.ok s => s
  | Except.error s => s

/-- Emission when subscribers may throw: the event is still observed by
listeners registered before the throwing one (recorded in the log), and the
exception propagates to the caller of `emit`. -/
def emitX (st : QEvent → Bool) (e : QEvent) (s : QState) : Except QState QState :=
  if st e then Except.error (emitE e s) else Except.ok (emitE e s)

/-- Source `processQueue` in the throwing-subscriber model.  The `try`
block covers the `job.started` emission and the synchronous body
invocation; both failure modes run the same `catch` block, whose own
`job.failure` emission is unprotected — if that subscriber throws, the
exception escapes `processQueue` with `processing` still `true`. -/
def processQueueXAux (st : QEvent → Bool) : Nat → QState → Except QState QState
  | 0, s => Except.ok s
  | fuel + 1, s =>
    if s.inProgressJobs.length ≥ s.concurrency ∨ s.processing = true then Except.ok s
    else
      match s.waitingJobs with
      | [] => Except.ok s
      | jw :: rest =>
        let s5 := promoteCore jw rest s
        match emitX st (QEvent.jobStarted jw.id jw.addedToTheQueueAt) s5 with
        | Except.error s6 =>
          match emitX st (QEvent.jobFailure jw.id (some 0)) s6 with
          | Except.error s7 => Except.error s7
          | Except.ok s7 =>
            let s9 := cleanup jw.id (settleMap jw.id Outcome.failure s7)
            Except.ok (swallowX (processQueueXAux st fuel
              (cleanup jw.id { s9 with processing := false })))
        | Except.ok s6 =>
          match jw.fnB with
          | FnB.pending => Except.ok { s6 with processing := false }
          | FnB.throwsSync =>
            match emitX st (QEvent.jobFailure jw.id (some 0)) s6 with
            | Except.error s7 => Except.error s7
            | Except.ok s7 =>
              let s9 := cleanup jw.id (settleMap jw.id Outcome.failure s7)
              Except.ok (swallowX (processQueueXAux st fuel
                (cleanup jw.id { s9 with processing := false })))

/-- Source `add` in the throwing-subscriber model.  The `queue.full`
emission happens outside any protection, so a throwing subscriber there
escapes to the caller of `add`; the `queue.new` emission and the dispatch
happen inside the promise executor, so a throw there rejects the new job's
handle (which then cleans up via its `.finally` reaction) while `add`
itself still returns the handle. -/
def addX (st : QEvent → Bool) (fnB : FnB) (hasHook : Bool) (s : QState) :
    Except QState (QState × AddRes) :=
  if isFull s then
    match emitX st (QEvent.queueFull s.waitingJobs.length s.inProgressJobs.length) s with
    | Except.error s1 => Except.error s1
    | Except.ok s1 =>
      Except.ok (s1, AddRes.rejectedFull s.waitingJobs.length s.inProgressJobs.length)
  else
    let job : JobRec :=
      { id := s.lastId, fnB := fnB, hasHook := hasHook,
        addedToTheQueueAt := 0, startedProcessingAt := none }
    let s1 : QState := { s with lastId := s.lastId + 1, registry := s.registry ++ [job] }
    let s2 := setUpQueueTimeout job.id s1
    let s3 : QState := { s2 with waitingJobs := s2.waitingJobs ++ [job] }
    match emitX st (QEvent.queueNew job.id s3.inProgressJobs.length s3.waitingJobs.length) s3 with
    | Except.error s4 =>
      let s5 := settleMap job.id Outcome.failure s4
      let s6 := swallowX (processQueueXAux st (s5.waitingJobs.length + 1) (cleanup job.id s5))
      Except.ok (s6, AddRes.admitted job.id)
    | Except.ok s4 =>
      match processQueueXAux st (s4.waitingJobs.length + 1) s4 with
      | Except.error s5 =>
        let s6 := settleMap job.id Outcome.failure s5
        let s7 := swallowX (processQueueXAux st (s6.waitingJobs.length + 1) (cleanup job.id s6))
        Except.ok (s7, AddRes.admitted job.id)
      | Except.ok s5 => Except.ok (s5, AddRes.admitted job.id)

/-- The settling `reject`/`resolve` call together with the `.finally`
reaction it schedules, in the throwing-subscriber model: the reaction runs
as a microtask after the public call has returned, so an exception its
dispatch raises is an unhandled rejection (`swallowX`), invisible to the
caller. -/
def settleFX (st : QEvent → Bool) (id : Nat) (o : Outcome) (s : QState) : QState :=
  if isSettled s id then s
  else
    let s3 := cleanup id { s with settled := (id, o) :: s.settled }
    swallowX (processQueueXAux st (s3.waitingJobs.length + 1) s3)

/-- The handle's `cancel` control in the throwing-subscriber model,
tracing the source order `job.cancel(); emit "job.cancel"; reject(...)`:
the hook call and the cleanup run first, then the unprotected emission —
if its subscriber throws, the exception escapes to the caller of `cancel`
and the `reject` never runs, leaving the job removed but unsettled. -/
def handleCancelX (st : QEvent → Bool) (j : JobRec) (s : QState) : Except QState QState :=
  match emitX st (QEvent.jobCancelEv j.id j.addedToTheQueueAt) (jobCancel j s) with
  | Except.error s2 => Except.error s2
  | Except.ok s2 => Except.ok (settleFX st j.id Outcome.jobCancelled s2)

/-- Source `stats()` in the throwing-subscriber model: its body only reads
the container lengths and `isFull` and performs no emission, so no
subscriber is invoked and it cannot throw. -/
def statsX (_st : QEvent → Bool) (s : QState) : Except QState QueueStats :=
  Except.ok (stats s)

/-- One `EventEmitter.emit` call of the external `events` dependency (its
code is not part of the repository): the topic's listeners in registration
order, `true` standing for a listener that throws.  Listeners run
synchronously until one throws; the result is how many listeners were
invoked and whether the emission threw. -/
def emitListeners : List Bool → Nat × Bool
  | [] => (0, false)
  | true :: _ => (1, true)
  | false :: ls => ((emitListeners ls).1 + 1, (emitListeners ls).2)

/-!
## Concrete fixtures for counterexamples and witnesses -/

/-- A fresh waiting job record with the given id and a pending body. -/
def jobW (n : Nat) : JobRec :=
  { id := n, fnB := FnB.pending, hasHook := false,
    addedToTheQueueAt := 0, startedProcessingAt := none }

/-- Dispatcher-drain counterexample state: `concurrency = 2`, no active
job, two admitted pending jobs waiting — the precondition of the drain
claim with two free slots. -/
def cexDispatch : QState :=
  { Queue 500 250 2 4 with
    lastId := 2,
    waitingJobs := [jobW 0, jobW 1],
    timeouts := [(0, TimerKind.queueT), (1, TimerKind.queueT)],
    registry := [jobW 0, jobW 1] }

/-- A subscriber set whose `queue.full` listener throws. -/
def stQueueFullThrows (e : QEvent) : Bool :=
  match e with
  | QEvent.queueFull _ _ => true
  | _ => false

/-- A subscriber set whose `job.cancel` listener throws. -/
def stJobCancelThrows (e : QEvent) : Bool :=
  match e with
  | QEvent.jobCancelEv _ _ => true
  | _ => false

/-- A subscriber set whose `job.failure` listener throws. -/
def stJobFailureThrows (e : QEvent) : Bool :=
  match e with
  | QEvent.jobFailure _ _ => true
  | _ => false

/-- A reachable full state of the default queue (`maxTaskCount = 1`) after
one admission. -/
def fullState1 : QState := (add FnB.pending false (Queue 500 250 1 1)).1

/-- Iterated admissions of pending-body jobs without hooks. -/
def addsPending : Nat → QState → QState
  | 0, s => s
  | n + 1, s => addsPending n (add FnB.pending false s).1

/-- A waiting job record with the given id whose body throws synchronously. -/
def jobT (n : Nat) : JobRec :=
  { id := n, fnB := FnB.throwsSync, hasHook := false,
    addedToTheQueueAt := 0, startedProcessingAt := none }

/-- A state with one free slot and a synchronously-throwing job at the head
of the waiting queue. -/
def cexThrow : QState :=
  { Queue 500 250 1 4 with
    lastId := 1,
    waitingJobs := [jobT 0],
    timeouts := [(0, TimerKind.queueT)],
    registry := [jobT 0] }

/-!
## State invariants

`InvC` collects the structural clauses that hold in every reachable state;
`live` states that every admitted, not-yet-settled job has a timer armed
(so a settling event is always enabled for it).  `liveX ex` is `live` with
the job `ex` exempted — the shape that holds in the middle of a turn after
`cleanup ex` has disarmed the timer but before the same turn settles
`ex`. -/

structure InvC (s : QState) : Prop where
  procF : s.processing = false
  sortedSW : List.Pairwise (· < ·) (s.startedLog ++ waitingIds s)
  ltLast : ∀ x ∈ s.startedLog ++ waitingIds s, x < s.lastId
  subIS : ∀ x ∈ inProgressIds s, x ∈ s.startedLog
  nodupI : (inProgressIds s).Nodup
  nodupS : (s.settled.map Prod.fst).Nodup
  settLt : ∀ p ∈ s.settled, p.1 < s.lastId
  sc : ∀ id, isSettled s id = true → id ∉ waitingIds s ∧ id ∉ inProgressIds s
  qtW : ∀ id, (id, TimerKind.queueT) ∈ s.timeouts → id ∈ waitingIds s ∧ id ∉ s.startedLog
  etI : ∀ id, (id, TimerKind.execT) ∈ s.timeouts → id ∈ inProgressIds s
  lenI : s.inProgressJobs.length ≤ s.concurrency
  lenWI : s.waitingJobs.length + s.inProgressJobs.length ≤ s.maxTaskCount
  qtNS : ∀ id t, settleLookup s id = some (Outcome.queueTimeout t) → id ∉ s.startedLog
  regLt : ∀ j ∈ s.registry, j.id < s.lastId

def live (s : QState) : Prop :=
  ∀ j ∈ s.registry, isSettled s j.id = false →
    (j.id, TimerKind.queueT) ∈ s.timeouts ∨ (j.id, TimerKind.execT) ∈ s.timeouts

def liveX (ex : Nat) (s : QState) : Prop :=
  ∀ j ∈ s.registry, j.id ≠ ex → isSettled s j.id = false →
    (j.id, TimerKind.queueT) ∈ s.timeouts ∨ (j.id, TimerKind.execT) ∈ s.timeouts

def Inv (s : QState) : Prop := InvC s ∧ live s

def InvX (ex : Nat) (s : QState) : Prop := InvC s ∧ liveX ex s

/-- Settlement stability: every settlement recorded in `s` is recorded
identically in `t`. -/
def SettledExt (s t : QState) : Prop :=
  ∀ id o, settleLookup s id = some o → settleLookup t id = some o

/-!
## Basic lemmas about the primitives -/

theorem settleLookup_congr {s t : QState} (h : t.settled = s.settled) (id : Nat) :
    settleLookup t id = settleLookup s id := by
  unfold settleLookup; rw [h]

theorem settledExt_refl (s : QState) : SettledExt s s := fun _ _ h => h

theorem settledExt_trans {s t u : QState} (h1 : SettledExt s t) (h2 : SettledExt t u) :
    SettledExt s u :=
  fun id o h => h2 id o (h1 id o h)

theorem settledExt_of_eq {s t : QState} (h : t.settled = s.settled) : SettledExt s t :=
  fun id o hh => by rw [settleLookup_congr h]; exact hh

theorem isSettled_false_iff {s : QState} {id : Nat} :
    isSettled s id = false ↔ settleLookup s id = none := by
  unfold isSettled
  cases h : settleLookup s id <;> simp [h]

theorem isSettled_true_iff {s : QState} {id : Nat} :
    isSettled s id = true ↔ ∃ o, settleLookup s id = some o := by
  unfold isSettled
  cases h : settleLookup s id <;> simp [h]

theorem settleLookup_none_iff {s : QState} {id : Nat} :
    settleLookup s id = none ↔ ∀ p ∈ s.settled, p.1 ≠ id := by
  unfold settleLookup
  rw [Option.map_eq_none', List.find?_eq_none]
  constructor
  · intro h p hp
    have := h p hp
    simpa using this
  · intro h p hp
    simpa using h p hp

theorem settleLookup_update {s t : QState} {idh : Nat} {oh : Outcome}
    (h : t.settled = (idh, oh) :: s.settled) (id : Nat) :
    settleLookup t id = if idh = id then some oh else settleLookup s id := by
  unfold settleLookup
  rw [h]
  by_cases hid : idh = id
  · rw [List.find?_cons_of_pos _ (by simpa using hid)]
    simp [hid]
  · rw [List.find?_cons_of_neg _ (by simpa using hid)]
    simp [hid]

theorem settledExt_settleMap (id : Nat) (o : Outcome) (s : QState) :
    SettledExt s (settleMap id o s) := by
  unfold settleMap
  split
  · exact settledExt_refl s
  · next hns =>
    intro i oo h
    rw [settleLookup_update rfl i]
    split
    · next heq =>
      exfalso
      apply hns
      rw [isSettled_true_iff]
      exact ⟨oo, heq ▸ h⟩
    · exact h

theorem settleLookup_settleMap_self {s : QState} {id : Nat} {o : Outcome}
    (h : isSettled s id = false) : settleLookup (settleMap id o s) id = some o := by
  unfold settleMap
  rw [if_neg (by simp [h])]
  rw [settleLookup_update rfl id]
  simp

theorem removeTimeout_eq (id : Nat) (s : QState) :
    removeTimeout id s = { s with timeouts := s.timeouts.filter (fun p => p.1 != id) } := by
  unfold removeTimeout
  split
  · rfl
  · next h =>
    have hfe : s.timeouts.filter (fun p => p.1 != id) = s.timeouts := by
      rw [List.filter_eq_self]
      intro a ha
      by_contra hc
      apply h
      rw [List.any_eq_true]
      refine ⟨a, ha, ?_⟩
      simp only [bne_iff_ne, ne_eq, not_not] at hc
      simp [hc]
    rw [hfe]

theorem settled_removeTimeout (id : Nat) (s : QState) :
    (removeTimeout id s).settled = s.settled := by
  rw [removeTimeout_eq]

theorem settled_removeJob (id : Nat) (s : QState) :
    (removeJob id s).settled = s.settled := by
  unfold removeJob; split <;> rfl

theorem settled_cleanup (id : Nat) (s : QState) :
    (cleanup id s).settled = s.settled := by
  unfold cleanup
  rw [settled_removeJob, settled_removeTimeout]

theorem waitingJobs_removeTimeout (id : Nat) (s : QState) :
    (removeTimeout id s).waitingJobs = s.waitingJobs := by
  rw [removeTimeout_eq]

theorem inProgressJobs_removeTimeout (id : Nat) (s : QState) :
    (removeTimeout id s).inProgressJobs = s.inProgressJobs := by
  rw [removeTimeout_eq]

theorem removeJob_waiting_or_inProgress (id : Nat) (s : QState) :
    (removeJob id s).waitingJobs = s.waitingJobs.eraseP (fun j => j.id == id) ∧
      (removeJob id s).inProgressJobs = s.inProgressJobs ∨
    (removeJob id s).waitingJobs = s.waitingJobs ∧
      (removeJob id s).inProgressJobs = s.inProgressJobs.eraseP (fun j => j.id == id) := by
  unfold removeJob
  split
  · exact Or.inl ⟨rfl, rfl⟩
  · exact Or.inr ⟨rfl, rfl⟩

theorem timeouts_removeJob (id : Nat) (s : QState) :
    (removeJob id s).timeouts = s.timeouts := by
  unfold removeJob; split <;> rfl

theorem mem_eraseP_of_ne {l : List JobRec} {j : JobRec} {id : Nat}
    (hj : j ∈ l) (hne : j.id ≠ id) : j ∈ l.eraseP (fun x => x.id == id) := by
  induction l with
  | nil => cases hj
  | cons a t ih =>
    by_cases ha : a.id = id
    · rw [List.eraseP_cons_of_pos (by simp [ha])]
      cases hj with
      | head => exact absurd ha hne
      | tail _ hmem => exact hmem
    · rw [List.eraseP_cons_of_neg (by simp [ha])]
      cases hj with
      | head => exact List.mem_cons_self _ _
      | tail _ hmem => exact List.mem_cons_of_mem _ (ih hmem)

theorem invc_congr {s t : QState}
    (hw : t.waitingJobs = s.waitingJobs) (hi : t.inProgressJobs = s.inProgressJobs)
    (ht : t.timeouts = s.timeouts) (hp : t.processing = s.processing)
    (hs : t.settled = s.settled) (hl : t.startedLog = s.startedLog)
    (hid : t.lastId = s.lastId) (hc : t.concurrency = s.concurrency)
    (hm : t.maxTaskCount = s.maxTaskCount)
    (hr : ∀ j ∈ t.registry, ∃ j2 ∈ s.registry, j.id = j2.id)
    (h : InvC s) : InvC t := by
  have hwj : waitingIds t = waitingIds s := by unfold waitingIds; rw [hw]
  have hij : inProgressIds t = inProgressIds s := by unfold inProgressIds; rw [hi]
  have hset : ∀ i, settleLookup t i = settleLookup s i := settleLookup_congr hs
  have hise : ∀ i, isSettled t i = isSettled s i := by
    intro i; unfold isSettled; rw [hset]
  constructor
  · rw [hp]; exact h.procF
  · rw [hl, hwj]; exact h.sortedSW
  · rw [hl, hwj, hid]; exact h.ltLast
  · rw [hij, hl]; exact h.subIS
  · rw [hij]; exact h.nodupI
  · rw [hs]; exact h.nodupS
  · rw [hs, hid]; exact h.settLt
  · intro i hi2
    rw [hise] at hi2
    rw [hwj, hij]
    exact h.sc i hi2
  · intro i hi2
    rw [ht] at hi2
    rw [hwj, hl]
    exact h.qtW i hi2
  · intro i hi2
    rw [ht] at hi2
    rw [hij]
    exact h.etI i hi2
  · rw [hi, hc]; exact h.lenI
  · rw [hw, hi, hm]; exact h.lenWI
  · intro i t2 hi2
    rw [hset] at hi2
    rw [hl]
    exact h.qtNS i t2 hi2
  · intro j hj
    obtain ⟨j2, hj2, hid2⟩ := hr j hj
    rw [hid, hid2]
    exact h.regLt j2 hj2

theorem live_congr {s t : QState}
    (ht : t.timeouts = s.timeouts) (hs : t.settled = s.settled)
    (hr : ∀ j ∈ t.registry, ∃ j2 ∈ s.registry, j.id = j2.id)
    (h : live s) : live t := by
  intro j hj hset
  obtain ⟨j2, hj2, hid2⟩ := hr j hj
  rw [ht]
  rw [show isSettled t j.id = isSettled s j.id by
    unfold isSettled; rw [settleLookup_congr hs]] at hset
  rw [hid2] at hset ⊢
  exact h j2 hj2 hset

theorem liveX_congr {s t : QState} {ex : Nat}
    (ht : t.timeouts = s.timeouts) (hs : t.settled = s.settled)
    (hr : ∀ j ∈ t.registry, ∃ j2 ∈ s.registry, j.id = j2.id)
    (h : liveX ex s) : liveX ex t := by
  intro j hj hne hset
  obtain ⟨j2, hj2, hid2⟩ := hr j hj
  rw [ht]
  rw [show isSettled t j.id = isSettled s j.id by
    unfold isSettled; rw [settleLookup_congr hs]] at hset
  rw [hid2] at hset ⊢
  exact h j2 hj2 (hid2 ▸ hne) hset

theorem invc_removeTimeout (id : Nat) {s : QState} (h : InvC s) :
    InvC (removeTimeout id s) := by
  rw [removeTimeout_eq]
  constructor
  · exact h.procF
  · exact h.sortedSW
  · exact h.ltLast
  · exact h.subIS
  · exact h.nodupI
  · exact h.nodupS
  · exact h.settLt
  · exact h.sc
  · intro i hi
    exact h.qtW i (List.mem_filter.mp hi).1
  · intro i hi
    exact h.etI i (List.mem_filter.mp hi).1
  · exact h.lenI
  · exact h.lenWI
  · exact h.qtNS
  · exact h.regLt

theorem invc_removeJob (id : Nat) {s : QState}
    (hno : ∀ k, (id, k) ∉ s.timeouts) (h : InvC s) : InvC (removeJob id s) := by
  unfold removeJob
  split
  · next hin =>
    have hsub : List.Sublist ((s.waitingJobs.eraseP (fun j => j.id == id)).map JobRec.id)
        (s.waitingJobs.map JobRec.id) :=
      List.Sublist.map _ (List.eraseP_sublist _)
    constructor
    · exact h.procF
    · exact List.Pairwise.sublist (hsub.append_left _) h.sortedSW
    · intro x hx
      rcases List.mem_append.mp hx with hx1 | hx2
      · exact h.ltLast x (List.mem_append.mpr (Or.inl hx1))
      · exact h.ltLast x (List.mem_append.mpr (Or.inr (hsub.subset hx2)))
    · exact h.subIS
    · exact h.nodupI
    · exact h.nodupS
    · exact h.settLt
    · intro i hi
      refine ⟨fun hmem => (h.sc i hi).1 (hsub.subset hmem), (h.sc i hi).2⟩
    · intro i hi
      have hiw := h.qtW i hi
      have hne : i ≠ id := fun he => hno TimerKind.queueT (he ▸ hi)
      obtain ⟨j, hj, hjid⟩ := List.mem_map.mp hiw.1
      refine ⟨List.mem_map.mpr ⟨j, mem_eraseP_of_ne hj (hjid ▸ hne), hjid⟩, hiw.2⟩
    · exact h.etI
    · exact h.lenI
    · calc (s.waitingJobs.eraseP (fun j => j.id == id)).length + s.inProgressJobs.length
          ≤ s.waitingJobs.length + s.inProgressJobs.length := by
            have := (List.eraseP_sublist (p := fun j => j.id == id) s.waitingJobs).length_le
            omega
        _ ≤ s.maxTaskCount := h.lenWI
    · exact h.qtNS
    · exact h.regLt
  · next hnin =>
    have hsub : List.Sublist ((s.inProgressJobs.eraseP (fun j => j.id == id)).map JobRec.id)
        (s.inProgressJobs.map JobRec.id) :=
      List.Sublist.map _ (List.eraseP_sublist _)
    constructor
    · exact h.procF
    · exact h.sortedSW
    · exact h.ltLast
    · intro x hx
      exact h.subIS x (hsub.subset hx)
    · exact List.Nodup.sublist hsub h.nodupI
    · exact h.nodupS
    · exact h.settLt
    · intro i hi
      refine ⟨(h.sc i hi).1, fun hmem => (h.sc i hi).2 (hsub.subset hmem)⟩
    · exact h.qtW
    · intro i hi
      have hii := h.etI i hi
      have hne : i ≠ id := fun he => hno TimerKind.execT (he ▸ hi)
      obtain ⟨j, hj, hjid⟩ := List.mem_map.mp hii
      exact List.mem_map.mpr ⟨j, mem_eraseP_of_ne hj (hjid ▸ hne), hjid⟩
    · calc (s.inProgressJobs.eraseP (fun j => j.id == id)).length ≤ s.inProgressJobs.length :=
          (List.eraseP_sublist _).length_le
        _ ≤ s.concurrency := h.lenI
    · calc s.waitingJobs.length + (s.inProgressJobs.eraseP (fun j => j.id == id)).length
          ≤ s.waitingJobs.length + s.inProgressJobs.length := by
            have := (List.eraseP_sublist (p := fun j => j.id == id) s.inProgressJobs).length_le
            omega
        _ ≤ s.maxTaskCount := h.lenWI
    · exact h.qtNS
    · exact h.regLt

theorem invc_cleanup (id : Nat) {s : QState} (h : InvC s) : InvC (cleanup id s) := by
  unfold cleanup
  refine invc_removeJob id ?_ (invc_removeTimeout id h)
  intro k hk
  rw [removeTimeout_eq] at hk
  have := List.mem_filter.mp hk
  simp at this

theorem timeouts_cleanup (id : Nat) (s : QState) :
    (cleanup id s).timeouts = s.timeouts.filter (fun p => p.1 != id) := by
  unfold cleanup
  rw [timeouts_removeJob, removeTimeout_eq]

theorem registry_removeTimeout (id : Nat) (s : QState) :
    (removeTimeout id s).registry = s.registry := by rw [removeTimeout_eq]

theorem registry_removeJob (id : Nat) (s : QState) :
    (removeJob id s).registry = s.registry := by unfold removeJob; split <;> rfl

theorem registry_cleanup (id : Nat) (s : QState) :
    (cleanup id s).registry = s.registry := by
  unfold cleanup
  rw [registry_removeJob, registry_removeTimeout]

theorem liveX_cleanup (id : Nat) {s : QState} (h : live s) : liveX id (cleanup id s) := by
  intro j hj hne hset
  rw [registry_cleanup] at hj
  rw [show isSettled (cleanup id s) j.id = isSettled s j.id by
    unfold isSettled; rw [settleLookup_congr (settled_cleanup id s)]] at hset
  rw [timeouts_cleanup]
  rcases h j hj hset with hq | he
  · exact Or.inl (List.mem_filter.mpr ⟨hq, by simpa using hne⟩)
  · exact Or.inr (List.mem_filter.mpr ⟨he, by simpa using hne⟩)

theorem findJob_mem {s : QState} {id : Nat} {j : JobRec} (h : findJob s id = some j) :
    j ∈ s.registry ∧ j.id = id := by
  unfold findJob at h
  exact ⟨List.mem_of_find?_eq_some h, by simpa using List.find?_some h⟩

theorem map_markStarted_eq_self {l : List JobRec} {id : Nat}
    (h : ∀ j ∈ l, j.id ≠ id) :
    l.map (fun j => if j.id == id then { j with startedProcessingAt := some 0 } else j) = l := by
  induction l with
  | nil => rfl
  | cons a t ih =>
    simp only [List.map_cons]
    rw [if_neg (by simpa using h a (List.mem_cons_self a t)),
      ih (fun j hj => h j (List.mem_cons_of_mem a hj))]

theorem mem_map_markStarted {l : List JobRec} {id : Nat} {j : JobRec}
    (h : j ∈ l.map (fun x => if x.id == id then { x with startedProcessingAt := some 0 } else x)) :
    ∃ j0 ∈ l, j.id = j0.id := by
  obtain ⟨j0, hj0, he⟩ := List.mem_map.mp h
  refine ⟨j0, hj0, ?_⟩
  by_cases hc : j0.id = id
  · rw [if_pos (by simpa using hc)] at he
    rw [← he]
  · rw [if_neg (by simpa using hc)] at he
    rw [← he]

theorem eraseP_of_forall_not {l : List JobRec} {p : JobRec → Bool}
    (h : ∀ a ∈ l, ¬ p a = true) : l.eraseP p = l := by
  induction l with
  | nil => rfl
  | cons a t ih =>
    rw [List.eraseP_cons_of_neg (h a (List.mem_cons_self a t)),
      ih (fun b hb => h b (List.mem_cons_of_mem a hb))]

theorem filter_ne_twice (id : Nat) (l : List (Nat × TimerKind)) :
    (l.filter (fun p => p.1 != id)).filter (fun p => p.1 != id) =
      l.filter (fun p => p.1 != id) := by
  rw [List.filter_filter]
  exact List.filter_congr (fun a _ => Bool.and_self _)

theorem promoteCore_spec {s : QState} {jw : JobRec} {rest : List JobRec}
    (h1 : ∀ j ∈ s.inProgressJobs, j.id ≠ jw.id) :
    promoteCore jw rest s =
      { s with
        waitingJobs := rest,
        processing := true,
        inProgressJobs := s.inProgressJobs ++ [{ jw with startedProcessingAt := some 0 }],
        timeouts := (jw.id, TimerKind.execT) :: s.timeouts.filter (fun p => p.1 != jw.id),
        registry := s.registry.map
          (fun j => if j.id == jw.id then { j with startedProcessingAt := some 0 } else j),
        startedLog := s.startedLog ++ [jw.id] } := by
  simp only [promoteCore, setUpProcessingTimeout, setTimer, setStarted, removeTimeout_eq]
  rw [filter_ne_twice]
  simp only [List.map_append, List.map_cons, List.map_nil]
  rw [map_markStarted_eq_self h1]
  rw [if_pos (by simp)]

theorem settleMap_of_not {s : QState} {id : Nat} {o : Outcome}
    (h : isSettled s id = false) :
    settleMap id o s = { s with settled := (id, o) :: s.settled } := by
  unfold settleMap
  rw [if_neg (by rw [h]; exact Bool.false_ne_true)]

theorem promoteFail_spec {s : QState} {jw : JobRec} {rest : List JobRec}
    (h1 : ∀ j ∈ s.inProgressJobs, j.id ≠ jw.id)
    (h2 : ∀ j ∈ rest, j.id ≠ jw.id)
    (h3 : isSettled s jw.id = false) :
    promoteFail jw rest s =
      { s with
        waitingJobs := rest,
        processing := false,
        timeouts := s.timeouts.filter (fun p => p.1 != jw.id),
        settled := (jw.id, Outcome.failure) :: s.settled,
        registry := s.registry.map
          (fun j => if j.id == jw.id then { j with startedProcessingAt := some 0 } else j),
        startedLog := s.startedLog ++ [jw.id],
        events := QEvent.jobFailure jw.id (some 0) ::
          QEvent.jobStarted jw.id jw.addedToTheQueueAt :: s.events } := by
  rw [isSettled_false_iff] at h3
  unfold settleLookup at h3
  rw [Option.map_eq_none'] at h3
  have hany : rest.any (fun j => j.id == jw.id) = false := by
    rw [List.any_eq_false]
    intro j hj
    simpa using h2 j hj
  have he : (s.inProgressJobs ++ [{ jw with startedProcessingAt := some 0 }]).eraseP
      (fun j => j.id == jw.id) = s.inProgressJobs := by
    rw [List.eraseP_append_right _ (fun b hb => by simpa using h1 b hb)]
    rw [List.eraseP_cons_of_pos (by simp)]
    rw [List.append_nil]
  have hf : ((jw.id, TimerKind.execT) :: s.timeouts.filter (fun p => p.1 != jw.id)).filter
      (fun p => p.1 != jw.id) = s.timeouts.filter (fun p => p.1 != jw.id) := by
    rw [List.filter_cons_of_neg (by simp), filter_ne_twice]
  simp only [promoteFail]
  rw [promoteCore_spec h1]
  simp only [emitE, settleMap, isSettled, settleLookup, h3, cleanup, removeTimeout_eq,
    removeJob, hany, he, hf, Option.map_none', Option.isSome_none, Bool.false_eq_true,
    if_false]

theorem promote_spec {s : QState} {jw : JobRec} {rest : List JobRec}
    (h1 : ∀ j ∈ s.inProgressJobs, j.id ≠ jw.id) :
    promote jw rest s =
      { s with
        waitingJobs := rest,
        processing := false,
        inProgressJobs := s.inProgressJobs ++ [{ jw with startedProcessingAt := some 0 }],
        timeouts := (jw.id, TimerKind.execT) :: s.timeouts.filter (fun p => p.1 != jw.id),
        registry := s.registry.map
          (fun j => if j.id == jw.id then { j with startedProcessingAt := some 0 } else j),
        startedLog := s.startedLog ++ [jw.id],
        events := QEvent.jobStarted jw.id jw.addedToTheQueueAt :: s.events } := by
  simp only [promote]
  rw [promoteCore_spec h1]
  rfl

theorem head_facts {s : QState} {jw : JobRec} {rest : List JobRec}
    (h : InvC s) (hw : s.waitingJobs = jw :: rest) :
    (∀ a ∈ s.startedLog, a < jw.id) ∧ (∀ j ∈ rest, jw.id < j.id) ∧
      jw.id ∉ s.startedLog ∧ (∀ j ∈ rest, j.id ≠ jw.id) ∧
      (∀ j ∈ s.inProgressJobs, j.id ≠ jw.id) ∧ isSettled s jw.id = false := by
  have hwid : waitingIds s = jw.id :: rest.map JobRec.id := by
    unfold waitingIds; rw [hw]; rfl
  have hp := h.sortedSW
  rw [hwid] at hp
  rw [List.pairwise_append] at hp
  obtain ⟨hA, hC, hAC⟩ := hp
  rw [List.pairwise_cons] at hC
  obtain ⟨hhead, _⟩ := hC
  have h1 : ∀ a ∈ s.startedLog, a < jw.id := fun a ha => hAC a ha jw.id (List.mem_cons_self _ _)
  have h2 : ∀ j ∈ rest, jw.id < j.id := fun j hj => hhead j.id (List.mem_map_of_mem _ hj)
  have h3 : jw.id ∉ s.startedLog := fun hmem => lt_irrefl jw.id (h1 jw.id hmem)
  have h4 : ∀ j ∈ rest, j.id ≠ jw.id := fun j hj => Nat.ne_of_gt (h2 j hj)
  have h5 : ∀ j ∈ s.inProgressJobs, j.id ≠ jw.id := by
    intro j hj
    have hmem : j.id ∈ s.startedLog := h.subIS j.id (List.mem_map_of_mem _ hj)
    exact Nat.ne_of_lt (h1 j.id hmem)
  have h6 : isSettled s jw.id = false := by
    cases hset : isSettled s jw.id
    · rfl
    · exact absurd (show jw.id ∈ waitingIds s by
        rw [hwid]; exact List.mem_cons_self _ _) (h.sc jw.id hset).1
  exact ⟨h1, h2, h3, h4, h5, h6⟩

theorem promote_inv {s : QState} {jw : JobRec} {rest : List JobRec}
    (h : InvC s) (hl : live s) (hw : s.waitingJobs = jw :: rest)
    (hlen : s.inProgressJobs.length < s.concurrency) :
    InvC (promote jw rest s) ∧ live (promote jw rest s) := by
  obtain ⟨f1, f2, f3, f4, f5, f6⟩ := head_facts h hw
  have hwid : waitingIds s = jw.id :: rest.map JobRec.id := by
    unfold waitingIds; rw [hw]; rfl
  have hnotI : jw.id ∉ inProgressIds s := by
    intro hmem
    obtain ⟨j, hj, hjid⟩ := List.mem_map.mp hmem
    exact f5 j hj hjid
  rw [promote_spec f5]
  constructor
  · constructor
    · rfl
    · simp only [waitingIds, List.append_assoc, List.singleton_append]
      have hp := h.sortedSW
      rw [hwid] at hp
      exact hp
    · intro x hx
      simp only [waitingIds, List.mem_append, List.mem_singleton] at hx
      rcases hx with (hx1 | hx2) | hx3
      · exact h.ltLast x (List.mem_append.mpr (Or.inl hx1))
      · rw [hx2]
        exact h.ltLast jw.id (List.mem_append.mpr (Or.inr (by
          rw [hwid]; exact List.mem_cons_self _ _)))
      · exact h.ltLast x (List.mem_append.mpr (Or.inr (by
          rw [hwid]; exact List.mem_cons_of_mem _ hx3)))
    · intro x hx
      simp only [inProgressIds, List.map_append, List.map_cons, List.map_nil,
        List.mem_append, List.mem_singleton] at hx
      simp only [List.mem_append, List.mem_singleton]
      rcases hx with hx1 | hx2
      · exact Or.inl (h.subIS x hx1)
      · exact Or.inr (by simpa using hx2)
    · simp only [inProgressIds, List.map_append, List.map_cons, List.map_nil]
      rw [List.nodup_append]
      refine ⟨h.nodupI, List.nodup_singleton _, ?_⟩
      intro a ha hb
      simp only [List.mem_singleton] at hb
      subst hb
      exact hnotI ha
    · exact h.nodupS
    · exact h.settLt
    · intro i hi
      have hsc := h.sc i hi
      constructor
      · intro hmem
        simp only [waitingIds] at hmem
        exact hsc.1 (by rw [hwid]; exact List.mem_cons_of_mem _ hmem)
      · intro hmem
        simp only [inProgressIds, List.map_append, List.map_cons, List.map_nil,
          List.mem_append, List.mem_singleton] at hmem
        rcases hmem with hmem1 | hmem2
        · exact hsc.2 hmem1
        · have hi2 : i = jw.id := by simpa using hmem2
          have hset : isSettled s jw.id = true := by rw [← hi2]; exact hi
          rw [f6] at hset
          exact Bool.false_ne_true hset
    · intro i hi
      rcases List.mem_cons.mp hi with heq | hmem
      · exact absurd (congrArg Prod.snd heq) (by simp)
      · have hm := List.mem_filter.mp hmem
        have hq := h.qtW i hm.1
        have hne : i ≠ jw.id := by simpa using hm.2
        constructor
        · simp only [waitingIds]
          have hmem2 := hq.1
          rw [hwid] at hmem2
          rcases List.mem_cons.mp hmem2 with heq2 | hm2
          · exact absurd heq2 hne
          · exact hm2
        · intro hmem2
          rcases List.mem_append.mp hmem2 with h2m | h2m
          · exact hq.2 h2m
          · exact hne (by simpa using h2m)
    · intro i hi
      simp only [inProgressIds, List.map_append, List.map_cons, List.map_nil,
        List.mem_append, List.mem_singleton]
      rcases List.mem_cons.mp hi with heq | hmem
      · have : i = jw.id := by
          have := congrArg Prod.fst heq
          simpa using this
        exact Or.inr (by simpa using this)
      · have hm := List.mem_filter.mp hmem
        exact Or.inl (h.etI i hm.1)
    · simp only [List.length_append, List.length_cons, List.length_nil]
      omega
    · have hwi := h.lenWI
      rw [hw] at hwi
      simp only [List.length_append, List.length_cons, List.length_nil] at *
      omega
    · intro i t hi
      have hns := h.qtNS i t hi
      intro hmem
      rcases List.mem_append.mp hmem with h2m | h2m
      · exact hns h2m
      · have hij : i = jw.id := by simpa using h2m
        have hset : isSettled s jw.id = true := by
          rw [← hij, isSettled_true_iff]
          exact ⟨_, hi⟩
        rw [f6] at hset
        exact Bool.false_ne_true hset
    · intro j hj
      obtain ⟨j0, hj0, hid⟩ := mem_map_markStarted hj
      rw [hid]
      exact h.regLt j0 hj0
  · intro j hj hset
    obtain ⟨j0, hj0, hid⟩ := mem_map_markStarted hj
    by_cases hcase : j.id = jw.id
    · rw [hcase]
      exact Or.inr (List.mem_cons_self _ _)
    · have hset0 : isSettled s j0.id = false := by rw [← hid]; exact hset
      rcases hl j0 hj0 hset0 with hq | he
      · refine Or.inl (List.mem_cons_of_mem _ (List.mem_filter.mpr ⟨?_, ?_⟩))
        · rw [hid]; exact hq
        · simpa using hcase
      · refine Or.inr (List.mem_cons_of_mem _ (List.mem_filter.mpr ⟨?_, ?_⟩))
        · rw [hid]; exact he
        · simpa using hcase

theorem notMem_settledIds_of_not {s : QState} {id : Nat}
    (h : isSettled s id = false) : id ∉ s.settled.map Prod.fst := by
  rw [isSettled_false_iff, settleLookup_none_iff] at h
  intro hmem
  obtain ⟨p, hp, he⟩ := List.mem_map.mp hmem
  exact h p hp he

theorem cleanup_promoteFail {s : QState} {jw : JobRec} {rest : List JobRec}
    (h1 : ∀ j ∈ s.inProgressJobs, j.id ≠ jw.id)
    (h2 : ∀ j ∈ rest, j.id ≠ jw.id)
    (h3 : isSettled s jw.id = false) :
    cleanup jw.id (promoteFail jw rest s) = promoteFail jw rest s := by
  rw [promoteFail_spec h1 h2 h3]
  unfold cleanup
  rw [removeTimeout_eq, filter_ne_twice]
  unfold removeJob
  rw [if_neg (by
    simp only [List.any_eq_true]
    intro hx
    obtain ⟨j, hj, hjp⟩ := hx
    exact h2 j hj (by simpa using hjp))]
  rw [eraseP_of_forall_not (fun a ha => by simpa using h1 a ha)]

theorem promoteFail_inv {s : QState} {jw : JobRec} {rest : List JobRec}
    (h : InvC s) (hl : live s) (hw : s.waitingJobs = jw :: rest) :
    InvC (promoteFail jw rest s) ∧ live (promoteFail jw rest s) := by
  obtain ⟨f1, f2, f3, f4, f5, f6⟩ := head_facts h hw
  have hwid : waitingIds s = jw.id :: rest.map JobRec.id := by
    unfold waitingIds; rw [hw]; rfl
  have hnotI : jw.id ∉ inProgressIds s := by
    intro hmem
    obtain ⟨j, hj, hjid⟩ := List.mem_map.mp hmem
    exact f5 j hj hjid
  have hjlt : jw.id < s.lastId :=
    h.ltLast jw.id (List.mem_append.mpr (Or.inr (by
      rw [hwid]; exact List.mem_cons_self _ _)))
  rw [promoteFail_spec f5 f4 f6]
  constructor
  · constructor
    · rfl
    · simp only [waitingIds, List.append_assoc, List.singleton_append]
      have hp := h.sortedSW
      rw [hwid] at hp
      exact hp
    · intro x hx
      simp only [waitingIds, List.mem_append, List.mem_singleton] at hx
      rcases hx with (hx1 | hx2) | hx3
      · exact h.ltLast x (List.mem_append.mpr (Or.inl hx1))
      · rw [hx2]
        exact hjlt
      · exact h.ltLast x (List.mem_append.mpr (Or.inr (by
          rw [hwid]; exact List.mem_cons_of_mem _ hx3)))
    · intro x hx
      exact List.mem_append.mpr (Or.inl (h.subIS x hx))
    · exact h.nodupI
    · simp only [List.map_cons]
      exact List.Nodup.cons (notMem_settledIds_of_not f6) h.nodupS
    · intro p hp
      rcases List.mem_cons.mp hp with heq | hmem
      · rw [heq]
        exact hjlt
      · exact h.settLt p hmem
    · intro i hi
      by_cases hc : i = jw.id
      · subst hc
        constructor
        · intro hmem
          simp only [waitingIds] at hmem
          obtain ⟨j, hj, hjid⟩ := List.mem_map.mp hmem
          exact f4 j hj hjid
        · exact hnotI
      · have hset : isSettled s i = true := by
          rw [isSettled_true_iff]
          have := isSettled_true_iff.mp hi
          obtain ⟨o, ho⟩ := this
          rw [settleLookup_update rfl i] at ho
          rw [if_neg (fun he => hc he.symm)] at ho
          exact ⟨o, ho⟩
        have hsc := h.sc i hset
        constructor
        · intro hmem
          simp only [waitingIds] at hmem
          exact hsc.1 (by rw [hwid]; exact List.mem_cons_of_mem _ hmem)
        · exact hsc.2
    · intro i hi
      have hm := List.mem_filter.mp hi
      have hq := h.qtW i hm.1
      have hne : i ≠ jw.id := by simpa using hm.2
      constructor
      · simp only [waitingIds]
        have hmem2 := hq.1
        rw [hwid] at hmem2
        rcases List.mem_cons.mp hmem2 with heq2 | hm2
        · exact absurd heq2 hne
        · exact hm2
      · intro hmem2
        rcases List.mem_append.mp hmem2 with h2m | h2m
        · exact hq.2 h2m
        · exact hne (by simpa using h2m)
    · intro i hi
      have hm := List.mem_filter.mp hi
      exact h.etI i hm.1
    · exact h.lenI
    · show rest.length + s.inProgressJobs.length ≤ s.maxTaskCount
      have hwi := h.lenWI
      rw [hw] at hwi
      simp only [List.length_cons] at hwi
      omega
    · intro i t hi
      rw [settleLookup_update rfl i] at hi
      by_cases hc : jw.id = i
      · rw [if_pos hc] at hi
        exact absurd (Option.some.inj hi) (by intro he; cases he)
      · rw [if_neg hc] at hi
        have hns := h.qtNS i t hi
        intro hmem
        rcases List.mem_append.mp hmem with h2m | h2m
        · exact hns h2m
        · have hie : i = jw.id := by simpa using h2m
          exact hc hie.symm
    · intro j hj
      obtain ⟨j0, hj0, hid⟩ := mem_map_markStarted hj
      rw [hid]
      exact h.regLt j0 hj0
  · intro j hj hset
    obtain ⟨j0, hj0, hid⟩ := mem_map_markStarted hj
    by_cases hc : j.id = jw.id
    · exfalso
      have hx := isSettled_false_iff.mp hset
      rw [settleLookup_update rfl j.id] at hx
      rw [if_pos hc.symm] at hx
      exact Option.noConfusion hx
    · have hset0 : isSettled s j0.id = false := by
        rw [← hid]
        rw [isSettled_false_iff, settleLookup_none_iff]
        intro p hp
        have := isSettled_false_iff.mp hset
        rw [settleLookup_none_iff] at this
        exact this p (List.mem_cons_of_mem _ hp)
      rcases hl j0 hj0 hset0 with hq | he
      · refine Or.inl (List.mem_filter.mpr ⟨?_, ?_⟩)
        · rw [hid]; exact hq
        · simpa using hc
      · refine Or.inr (List.mem_filter.mpr ⟨?_, ?_⟩)
        · rw [hid]; exact he
        · simpa using hc

theorem settled_promote (jw : JobRec) (rest : List JobRec) (s : QState) :
    (promote jw rest s).settled = s.settled := by
  simp only [promote, promoteCore, setUpProcessingTimeout, setTimer, setStarted, emitE,
    removeTimeout_eq]

theorem settledExt_promoteFail (jw : JobRec) (rest : List JobRec) (s : QState) :
    SettledExt s (promoteFail jw rest s) := by
  have he : (emitE (QEvent.jobFailure jw.id (some 0))
      (emitE (QEvent.jobStarted jw.id jw.addedToTheQueueAt) (promoteCore jw rest s))).settled =
      s.settled := by
    simp only [promoteCore, setUpProcessingTimeout, setTimer, setStarted, emitE,
      removeTimeout_eq]
  refine settledExt_trans (settledExt_trans (settledExt_of_eq he)
    (settledExt_settleMap jw.id Outcome.failure _)) (settledExt_of_eq ?_)
  show (promoteFail jw rest s).settled = _
  simp only [promoteFail]
  rw [settled_cleanup]

theorem settledExt_processQueueAux (fuel : Nat) :
    ∀ s : QState, SettledExt s (processQueueAux fuel s) := by
  induction fuel with
  | zero => intro s; exact settledExt_refl s
  | succ n ih =>
    intro s
    unfold processQueueAux
    split
    · exact settledExt_refl s
    · split
      · exact settledExt_refl s
      · next jw rest hw =>
        split
        · exact settledExt_of_eq (settled_promote _ _ _)
        · refine settledExt_trans (settledExt_promoteFail jw rest s) ?_
          exact settledExt_trans (settledExt_of_eq (settled_cleanup _ _)) (ih _)

theorem settledExt_processQueue (s : QState) : SettledExt s (processQueue s) :=
  settledExt_processQueueAux _ s

theorem inv_processQueueAux (fuel : Nat) :
    ∀ s : QState, InvC s → live s →
      InvC (processQueueAux fuel s) ∧ live (processQueueAux fuel s) := by
  induction fuel with
  | zero => intro s h hl; exact ⟨h, hl⟩
  | succ n ih =>
    intro s h hl
    unfold processQueueAux
    split
    · exact ⟨h, hl⟩
    · next hguard =>
      split
      · exact ⟨h, hl⟩
      · next jw rest hw =>
        have hlen : s.inProgressJobs.length < s.concurrency := by
          rcases Nat.lt_or_ge s.inProgressJobs.length s.concurrency with hx | hx
          · exact hx
          · exact absurd (Or.inl hx) hguard
        split
        · exact promote_inv h hl hw hlen
        · obtain ⟨f1, f2, f3, f4, f5, f6⟩ := head_facts h hw
          rw [cleanup_promoteFail f5 f4 f6]
          have hPF := promoteFail_inv h hl hw
          exact ih _ hPF.1 hPF.2

theorem inv_processQueue {s : QState} (h : InvC s) (hl : live s) :
    InvC (processQueue s) ∧ live (processQueue s) :=
  inv_processQueueAux _ s h hl

theorem notMem_ids_eraseP {l : List JobRec} {id : Nat}
    (h : (l.map JobRec.id).Nodup) :
    id ∉ (l.eraseP (fun j => j.id == id)).map JobRec.id := by
  induction l with
  | nil => simp
  | cons a t ih =>
    simp only [List.map_cons, List.nodup_cons] at h
    by_cases ha : a.id = id
    · rw [List.eraseP_cons_of_pos (by simpa using ha)]
      rw [← ha]
      exact h.1
    · rw [List.eraseP_cons_of_neg (by simpa using ha)]
      simp only [List.map_cons, List.mem_cons]
      intro hx
      rcases hx with hx | hx
      · exact ha hx.symm
      · exact ih h.2 hx

theorem waitingIds_nodup {s : QState} (h : InvC s) : (waitingIds s).Nodup :=
  ((List.pairwise_append.mp h.sortedSW).2.1).imp (fun hlt => Nat.ne_of_lt hlt)

theorem waiting_inProgress_disjoint {s : QState} (h : InvC s) {id : Nat}
    (hw : id ∈ waitingIds s) : id ∉ inProgressIds s := by
  intro hi
  have hA : id ∈ s.startedLog := h.subIS id hi
  have := (List.pairwise_append.mp h.sortedSW).2.2 id hA id hw
  exact lt_irrefl id this

theorem cleanup_removes {s : QState} (h : InvC s) (id : Nat) :
    id ∉ waitingIds (cleanup id s) ∧ id ∉ inProgressIds (cleanup id s) := by
  unfold cleanup
  rw [removeTimeout_eq]
  unfold removeJob
  split
  · next hany =>
    have hidw : id ∈ waitingIds s := by
      rw [List.any_eq_true] at hany
      obtain ⟨j, hj, hjp⟩ := hany
      exact List.mem_map.mpr ⟨j, hj, by simpa using hjp⟩
    constructor
    · show id ∉ (s.waitingJobs.eraseP (fun j => j.id == id)).map JobRec.id
      exact notMem_ids_eraseP (waitingIds_nodup h)
    · show id ∉ inProgressIds s
      exact waiting_inProgress_disjoint h hidw
  · next hany =>
    constructor
    · show id ∉ waitingIds s
      intro hmem
      apply hany
      rw [List.any_eq_true]
      obtain ⟨j, hj, hjid⟩ := List.mem_map.mp hmem
      exact ⟨j, hj, by simpa using hjid⟩
    · show id ∉ (s.inProgressJobs.eraseP (fun j => j.id == id)).map JobRec.id
      exact notMem_ids_eraseP h.nodupI

theorem cleanup_settled_comm (id : Nat) (X : List (Nat × Outcome)) (s : QState) :
    cleanup id { s with settled := X } = { cleanup id s with settled := X } := by
  unfold cleanup
  rw [removeTimeout_eq, removeTimeout_eq]
  unfold removeJob
  by_cases hc : s.waitingJobs.any (fun j => j.id == id) = true
  · rw [if_pos hc, if_pos hc]
  · rw [if_neg hc, if_neg hc]

theorem lastId_cleanup (id : Nat) (s : QState) : (cleanup id s).lastId = s.lastId := by
  unfold cleanup removeJob
  rw [removeTimeout_eq]
  split <;> rfl

theorem startedLog_cleanup (id : Nat) (s : QState) :
    (cleanup id s).startedLog = s.startedLog := by
  unfold cleanup removeJob
  rw [removeTimeout_eq]
  split <;> rfl

theorem liveX_cleanup_of_liveX (id : Nat) {s : QState} (h : liveX id s) :
    liveX id (cleanup id s) := by
  intro j hj hne hset
  rw [registry_cleanup] at hj
  rw [show isSettled (cleanup id s) j.id = isSettled s j.id by
    unfold isSettled; rw [settleLookup_congr (settled_cleanup id s)]] at hset
  rw [timeouts_cleanup]
  rcases h j hj hne hset with hq | he
  · exact Or.inl (List.mem_filter.mpr ⟨hq, by simpa using hne⟩)
  · exact Or.inr (List.mem_filter.mpr ⟨he, by simpa using hne⟩)

theorem settle_cleanup_inv {s : QState} {id : Nat} {o : Outcome}
    (h : InvC s) (hlx : liveX id s)
    (hns : isSettled s id = false)
    (hq : ∀ t, o = Outcome.queueTimeout t → id ∉ s.startedLog)
    (hlt : id < s.lastId) :
    InvC (cleanup id { s with settled := (id, o) :: s.settled }) ∧
      live (cleanup id { s with settled := (id, o) :: s.settled }) := by
  rw [cleanup_settled_comm]
  have hC : InvC (cleanup id s) := invc_cleanup id h
  have hLX : liveX id (cleanup id s) := liveX_cleanup_of_liveX id hlx
  have hrm := cleanup_removes h id
  have hsetC : ∀ i, isSettled (cleanup id s) i = isSettled s i := by
    intro i
    unfold isSettled
    rw [settleLookup_congr (settled_cleanup id s)]
  have hlookC : ∀ i, settleLookup (cleanup id s) i = settleLookup s i :=
    settleLookup_congr (settled_cleanup id s)
  set C := cleanup id s with hCdef
  have hupd : ∀ i, settleLookup { C with settled := (id, o) :: s.settled } i =
      if id = i then some o else settleLookup s i := fun i =>
    settleLookup_update (s := s) rfl i
  constructor
  · constructor
    · exact hC.procF
    · exact hC.sortedSW
    · exact hC.ltLast
    · exact hC.subIS
    · exact hC.nodupI
    · simp only [List.map_cons]
      exact List.Nodup.cons (notMem_settledIds_of_not hns) h.nodupS
    · intro p hp
      rcases List.mem_cons.mp hp with heq | hmem
      · rw [heq]
        show id < C.lastId
        rw [hCdef, lastId_cleanup]
        exact hlt
      · show p.1 < C.lastId
        rw [hCdef, lastId_cleanup]
        exact h.settLt p hmem
    · intro i hi
      rw [isSettled_true_iff] at hi
      obtain ⟨oi, hoi⟩ := hi
      rw [hupd i] at hoi
      by_cases hc : id = i
      · rw [← hc]
        exact hrm
      · rw [if_neg hc] at hoi
        have : isSettled C i = true := by
          rw [isSettled_true_iff, hlookC i]
          exact ⟨oi, hoi⟩
        exact hC.sc i this
    · exact hC.qtW
    · exact hC.etI
    · exact hC.lenI
    · exact hC.lenWI
    · intro i t hi
      rw [hupd i] at hi
      by_cases hc : id = i
      · rw [if_pos hc] at hi
        have hoe : o = Outcome.queueTimeout t := Option.some.inj hi
        have := hq t hoe
        rw [hc] at this
        intro hmem
        exact this (by
          have hlog : C.startedLog = s.startedLog := by
            rw [hCdef, startedLog_cleanup]
          rw [hlog] at hmem
          exact hmem)
      · rw [if_neg hc] at hi
        have : settleLookup C i = some (Outcome.queueTimeout t) := by
          rw [hlookC i]
          exact hi
        exact hC.qtNS i t this
    · exact hC.regLt
  · intro j hj hset
    by_cases hc : j.id = id
    · exfalso
      have hx := isSettled_false_iff.mp hset
      rw [show settleLookup { C with settled := (id, o) :: s.settled } j.id =
        if id = j.id then some o else settleLookup s j.id from hupd j.id] at hx
      rw [if_pos hc.symm] at hx
      exact Option.noConfusion hx
    · have hsetC2 : isSettled C j.id = false := by
        rw [isSettled_false_iff, hlookC j.id]
        have hx := isSettled_false_iff.mp hset
        rw [hupd j.id, if_neg (fun he => hc he.symm)] at hx
        exact hx
      exact hLX j hj hc hsetC2

theorem settleF_inv {s : QState} {id : Nat} {o : Outcome}
    (h : InvC s) (hlx : liveX id s)
    (hq : ∀ t, o = Outcome.queueTimeout t → id ∉ s.startedLog)
    (hlt : id < s.lastId) :
    InvC (settleF id o s) ∧ live (settleF id o s) := by
  unfold settleF
  split
  · next hset =>
    refine ⟨h, ?_⟩
    intro j hj hsj
    by_cases hc : j.id = id
    · rw [hc, hset] at hsj
      exact absurd hsj (by simp)
    · exact hlx j hj hc hsj
  · next hset =>
    have hns : isSettled s id = false := by
      cases h2 : isSettled s id
      · rfl
      · exact absurd h2 hset
    have := settle_cleanup_inv h hlx hns hq hlt
    exact inv_processQueue this.1 this.2

theorem settledExt_settleF (id : Nat) (o : Outcome) (s : QState) :
    SettledExt s (settleF id o s) := by
  unfold settleF
  split
  · exact settledExt_refl s
  · next hset =>
    intro i oi hoi
    have hne : i ≠ id := by
      intro he
      exact hset (by rw [isSettled_true_iff]; exact ⟨oi, he ▸ hoi⟩)
    refine settledExt_processQueue _ i oi ?_
    rw [settleLookup_congr (settled_cleanup id _) i]
    rw [settleLookup_update (s := s) rfl i, if_neg (fun he => hne he.symm)]
    exact hoi

theorem settleF_settles {s : QState} {id : Nat} {o : Outcome}
    (hns : isSettled s id = false) : settleLookup (settleF id o s) id = some o := by
  unfold settleF
  rw [if_neg (by rw [hns]; exact Bool.false_ne_true)]
  refine settledExt_processQueue _ id o ?_
  rw [settleLookup_congr (settled_cleanup id _) id]
  rw [settleLookup_update (s := s) rfl id, if_pos rfl]

theorem invc_emitE (e : QEvent) {s : QState} (h : InvC s) : InvC (emitE e s) :=
  invc_congr (s := s) (t := emitE e s) rfl rfl rfl rfl rfl rfl rfl rfl rfl
    (fun j hj => ⟨j, hj, rfl⟩) h

theorem live_emitE (e : QEvent) {s : QState} (h : live s) : live (emitE e s) :=
  live_congr (s := s) (t := emitE e s) rfl rfl (fun j hj => ⟨j, hj, rfl⟩) h

theorem liveX_emitE (e : QEvent) {ex : Nat} {s : QState} (h : liveX ex s) :
    liveX ex (emitE e s) :=
  liveX_congr (s := s) (t := emitE e s) rfl rfl (fun j hj => ⟨j, hj, rfl⟩) h

theorem isFull_false_lt {s : QState} (h : ¬ isFull s = true) :
    s.waitingJobs.length + s.inProgressJobs.length < s.maxTaskCount := by
  simp only [isFull, decide_eq_true_eq] at h
  exact Nat.lt_of_not_le h

theorem add_full_spec {s : QState} (fnB : FnB) (hasHook : Bool) (hf : isFull s = true) :
    add fnB hasHook s =
      (emitE (QEvent.queueFull s.waitingJobs.length s.inProgressJobs.length) s,
        AddRes.rejectedFull s.waitingJobs.length s.inProgressJobs.length) := by
  unfold add
  rw [if_pos hf]

/-- The state pushed by a non-full `add` just before its `processQueue`
call: fresh job admitted, queue-wait timer armed, `queue.new` logged. -/
def addMid (fnB : FnB) (hasHook : Bool) (s : QState) : QState :=
  { s with
    lastId := s.lastId + 1,
    registry := s.registry ++
      [{ id := s.lastId, fnB := fnB, hasHook := hasHook,
         addedToTheQueueAt := 0, startedProcessingAt := none }],
    timeouts := (s.lastId, TimerKind.queueT) :: s.timeouts.filter (fun p => p.1 != s.lastId),
    waitingJobs := s.waitingJobs ++
      [{ id := s.lastId, fnB := fnB, hasHook := hasHook,
         addedToTheQueueAt := 0, startedProcessingAt := none }],
    events := QEvent.queueNew s.lastId s.inProgressJobs.length
      (s.waitingJobs.length + 1) :: s.events }

theorem add_nonfull_spec {s : QState} (fnB : FnB) (hasHook : Bool) (hf : ¬ isFull s = true) :
    add fnB hasHook s = (processQueue (addMid fnB hasHook s), AddRes.admitted s.lastId) := by
  unfold add
  rw [if_neg hf]
  simp only [setUpQueueTimeout, setTimer, emitE, addMid]
  simp [List.length_append]

theorem addMid_inv {s : QState} (fnB : FnB) (hasHook : Bool)
    (h : InvC s) (hl : live s) (hf : ¬ isFull s = true) :
    InvC (addMid fnB hasHook s) ∧ live (addMid fnB hasHook s) := by
  have hlt := isFull_false_lt hf
  have hidlt : ∀ x ∈ s.startedLog ++ waitingIds s, x < s.lastId := h.ltLast
  constructor
  · constructor
    · exact h.procF
    · show List.Pairwise (· < ·) (s.startedLog ++ waitingIds (addMid fnB hasHook s))
      have : waitingIds (addMid fnB hasHook s) = waitingIds s ++ [s.lastId] := by
        simp [addMid, waitingIds]
      rw [this, ← List.append_assoc]
      rw [List.pairwise_append]
      refine ⟨h.sortedSW, List.pairwise_singleton _ _, ?_⟩
      intro a ha b hb
      rw [List.mem_singleton] at hb
      rw [hb]
      exact hidlt a ha
    · intro x hx
      show x < s.lastId + 1
      have hrw : (addMid fnB hasHook s).startedLog ++ waitingIds (addMid fnB hasHook s) =
          s.startedLog ++ (waitingIds s ++ [s.lastId]) := by
        simp [addMid, waitingIds]
      rw [hrw] at hx
      rcases List.mem_append.mp hx with hx1 | hx2
      · exact Nat.lt_succ_of_lt (hidlt x (List.mem_append.mpr (Or.inl hx1)))
      · rcases List.mem_append.mp hx2 with hx3 | hx4
        · exact Nat.lt_succ_of_lt (hidlt x (List.mem_append.mpr (Or.inr hx3)))
        · rw [List.mem_singleton] at hx4
          rw [hx4]
          exact Nat.lt_succ_self _
    · exact h.subIS
    · exact h.nodupI
    · exact h.nodupS
    · intro p hp
      exact Nat.lt_succ_of_lt (h.settLt p hp)
    · intro i hi
      have hsc := h.sc i hi
      have hine : i ≠ s.lastId := by
        rw [isSettled_true_iff] at hi
        obtain ⟨o, ho⟩ := hi
        unfold settleLookup at ho
        rw [Option.map_eq_some'] at ho
        obtain ⟨p, hp, hpe⟩ := ho
        have := h.settLt p (List.mem_of_find?_eq_some hp)
        have hpi : p.1 = i := by simpa using List.find?_some hp
        rw [hpi] at this
        exact Nat.ne_of_lt this
      constructor
      · show i ∉ (s.waitingJobs ++ [_]).map JobRec.id
        rw [List.map_append]
        intro hmem
        rcases List.mem_append.mp hmem with h2 | h2
        · exact hsc.1 h2
        · simp only [List.map_cons, List.map_nil, List.mem_singleton] at h2
          exact hine h2
      · exact hsc.2
    · intro i hi
      rcases List.mem_cons.mp hi with heq | hmem
      · have hie : i = s.lastId := by
          have := congrArg Prod.fst heq
          simpa using this
        constructor
        · show i ∈ (s.waitingJobs ++ [_]).map JobRec.id
          rw [List.map_append, List.mem_append]
          right
          simp [hie]
        · rw [hie]
          intro hmem2
          exact absurd (hidlt s.lastId (List.mem_append.mpr (Or.inl hmem2)))
            (lt_irrefl s.lastId)
      · have hm := List.mem_filter.mp hmem
        have hq := h.qtW i hm.1
        constructor
        · show i ∈ (s.waitingJobs ++ [_]).map JobRec.id
          rw [List.map_append, List.mem_append]
          exact Or.inl hq.1
        · exact hq.2
    · intro i hi
      rcases List.mem_cons.mp hi with heq | hmem
      · exact absurd (congrArg Prod.snd heq) (by simp)
      · have hm := List.mem_filter.mp hmem
        exact h.etI i hm.1
    · exact h.lenI
    · show (s.waitingJobs ++ [_]).length + s.inProgressJobs.length ≤ s.maxTaskCount
      rw [List.length_append]
      simp only [List.length_cons, List.length_nil]
      omega
    · intro i t hi
      exact h.qtNS i t hi
    · intro j hj
      rcases List.mem_append.mp hj with hj1 | hj2
      · exact Nat.lt_succ_of_lt (h.regLt j hj1)
      · rw [List.mem_singleton] at hj2
        rw [hj2]
        exact Nat.lt_succ_self _
  · intro j hj hset
    rcases List.mem_append.mp hj with hj1 | hj2
    · have htimer := hl j hj1 hset
      have hjlt : j.id < s.lastId := h.regLt j hj1
      rcases htimer with hq | he
      · exact Or.inl (List.mem_cons_of_mem _ (List.mem_filter.mpr
          ⟨hq, by simpa using Nat.ne_of_lt hjlt⟩))
      · exact Or.inr (List.mem_cons_of_mem _ (List.mem_filter.mpr
          ⟨he, by simpa using Nat.ne_of_lt hjlt⟩))
    · rw [List.mem_singleton] at hj2
      rw [hj2]
      exact Or.inl (List.mem_cons_self _ _)

theorem add_inv {s : QState} (fnB : FnB) (hasHook : Bool)
    (h : InvC s) (hl : live s) :
    InvC (add fnB hasHook s).1 ∧ live (add fnB hasHook s).1 := by
  by_cases hf : isFull s = true
  · rw [add_full_spec fnB hasHook hf]
    exact ⟨invc_emitE _ h, live_emitE _ hl⟩
  · rw [add_nonfull_spec fnB hasHook hf]
    have := addMid_inv fnB hasHook h hl hf
    exact inv_processQueue this.1 this.2

theorem settledExt_add (fnB : FnB) (hasHook : Bool) (s : QState) :
    SettledExt s (add fnB hasHook s).1 := by
  by_cases hf : isFull s = true
  · rw [add_full_spec fnB hasHook hf]
    exact settledExt_of_eq rfl
  · rw [add_nonfull_spec fnB hasHook hf]
    refine settledExt_trans (settledExt_of_eq ?_) (settledExt_processQueue _)
    rfl

theorem settleMap_of_settled {s : QState} {id : Nat} {o : Outcome}
    (h : isSettled s id = true) : settleMap id o s = s := by
  unfold settleMap
  rw [if_pos h]

theorem liveX_removeTimeout (id : Nat) {s : QState} (h : live s) :
    liveX id (removeTimeout id s) := by
  intro j hj hne hset
  rw [registry_removeTimeout] at hj
  rw [show isSettled (removeTimeout id s) j.id = isSettled s j.id by
    unfold isSettled; rw [settleLookup_congr (settled_removeTimeout id s)]] at hset
  rw [removeTimeout_eq]
  rcases h j hj hset with hq | he
  · exact Or.inl (List.mem_filter.mpr ⟨hq, by simpa using hne⟩)
  · exact Or.inr (List.mem_filter.mpr ⟨he, by simpa using hne⟩)

theorem live_of_liveX_settled {t : QState} {ex : Nat}
    (hx : liveX ex t) (hset : isSettled t ex = true) : live t := by
  intro j hj hs
  by_cases hc : j.id = ex
  · rw [hc, hset] at hs
    exact absurd hs (by simp)
  · exact hx j hj hc hs

theorem settled_jobCancel (j : JobRec) (s : QState) :
    (jobCancel j s).settled = s.settled := by
  simp only [jobCancel]
  by_cases hh : j.hasHook = true
  · rw [if_pos hh, settled_cleanup]
  · rw [if_neg hh, settled_cleanup]

theorem lastId_jobCancel (j : JobRec) (s : QState) :
    (jobCancel j s).lastId = s.lastId := by
  simp only [jobCancel]
  by_cases hh : j.hasHook = true
  · rw [if_pos hh, lastId_cleanup]
  · rw [if_neg hh, lastId_cleanup]

theorem jobCancel_invx {s : QState} (j : JobRec) (h : InvC s) (hl : live s) :
    InvC (jobCancel j s) ∧ liveX j.id (jobCancel j s) := by
  simp only [jobCancel]
  by_cases hh : j.hasHook = true
  · rw [if_pos hh]
    have h2 : InvC { s with hookCalls := j.id :: s.hookCalls } :=
      invc_congr (s := s) (t := { s with hookCalls := j.id :: s.hookCalls })
        rfl rfl rfl rfl rfl rfl rfl rfl rfl (fun j2 hj2 => ⟨j2, hj2, rfl⟩) h
    have hl2 : live { s with hookCalls := j.id :: s.hookCalls } :=
      live_congr (s := s) (t := { s with hookCalls := j.id :: s.hookCalls })
        rfl rfl (fun j2 hj2 => ⟨j2, hj2, rfl⟩) hl
    exact ⟨invc_cleanup j.id h2, liveX_cleanup j.id hl2⟩
  · rw [if_neg hh]
    exact ⟨invc_cleanup j.id h, liveX_cleanup j.id hl⟩

theorem handleCancel_inv {s : QState} {j : JobRec} (h : InvC s) (hl : live s)
    (hjr : j ∈ s.registry) :
    InvC (handleCancel j s) ∧ live (handleCancel j s) := by
  simp only [handleCancel]
  obtain ⟨h1, hx1⟩ := jobCancel_invx j h hl
  refine settleF_inv (invc_emitE _ h1) (liveX_emitE _ hx1)
    (fun t ht => Outcome.noConfusion ht) ?_
  show j.id < (emitE (QEvent.jobCancelEv j.id j.addedToTheQueueAt) (jobCancel j s)).lastId
  rw [show (emitE (QEvent.jobCancelEv j.id j.addedToTheQueueAt) (jobCancel j s)).lastId =
    (jobCancel j s).lastId from rfl, lastId_jobCancel]
  exact h.regLt j hjr

theorem queueTimerFire_inv {s : QState} {j : JobRec} (h : InvC s) (hl : live s)
    (hjr : j ∈ s.registry) (hqt : (j.id, TimerKind.queueT) ∈ s.timeouts) :
    InvC (queueTimerFire j s) ∧ live (queueTimerFire j s) := by
  simp only [queueTimerFire]
  have h1 := invc_emitE (QEvent.queueTimeoutEv j.id j.addedToTheQueueAt) h
  have hl1 := live_emitE (QEvent.queueTimeoutEv j.id j.addedToTheQueueAt) hl
  refine settleF_inv (invc_removeTimeout j.id h1) (liveX_removeTimeout j.id hl1) ?_ ?_
  · intro t ht
    show j.id ∉ (removeTimeout j.id (emitE _ s)).startedLog
    rw [show (removeTimeout j.id (emitE (QEvent.queueTimeoutEv j.id j.addedToTheQueueAt) s)).startedLog
      = s.startedLog by rw [removeTimeout_eq]; rfl]
    exact (h.qtW j.id hqt).2
  · show j.id < (removeTimeout j.id (emitE _ s)).lastId
    rw [show (removeTimeout j.id (emitE (QEvent.queueTimeoutEv j.id j.addedToTheQueueAt) s)).lastId
      = s.lastId by rw [removeTimeout_eq]; rfl]
    exact h.regLt j hjr

theorem execTimerFire_inv {s : QState} {j : JobRec} (h : InvC s) (hl : live s)
    (hjr : j ∈ s.registry) :
    InvC (execTimerFire j s) ∧ live (execTimerFire j s) := by
  simp only [execTimerFire]
  obtain ⟨h1, hx1⟩ := jobCancel_invx j (invc_emitE _ h) (live_emitE _ hl)
  refine settleF_inv h1 hx1 (fun t ht => Outcome.noConfusion ht) ?_
  show j.id < (jobCancel j (emitE (QEvent.jobTimeoutEv j.id j.startedProcessingAt) s)).lastId
  rw [lastId_jobCancel]
  exact h.regLt j hjr

theorem settle_chain_inv {s1 : QState} {id : Nat} {o : Outcome}
    (h1 : InvC s1) (hx1 : liveX id s1)
    (ho : ∀ t, ¬ o = Outcome.queueTimeout t) (hlt : id < s1.lastId) :
    (InvC (processQueue (settleMap id o (cleanup id s1))) ∧
      live (processQueue (settleMap id o (cleanup id s1)))) ∧
    (InvC (processQueue (cleanup id (processQueue (settleMap id o (cleanup id s1))))) ∧
      live (processQueue (cleanup id (processQueue (settleMap id o (cleanup id s1)))))) := by
  have hCset : ∀ i, isSettled (cleanup id s1) i = isSettled s1 i := by
    intro i
    unfold isSettled
    rw [settleLookup_congr (settled_cleanup id s1)]
  by_cases hset : isSettled s1 id = true
  · rw [settleMap_of_settled (by rw [hCset]; exact hset)]
    have hC : InvC (cleanup id s1) := invc_cleanup id h1
    have hlC : live (cleanup id s1) :=
      live_of_liveX_settled (liveX_cleanup_of_liveX id hx1) (by rw [hCset]; exact hset)
    have hY := inv_processQueue hC hlC
    have hYset : isSettled (processQueue (cleanup id s1)) id = true := by
      rw [isSettled_true_iff] at hset ⊢
      obtain ⟨oi, hoi⟩ := hset
      exact ⟨oi, settledExt_processQueue _ id oi (by
        rw [settleLookup_congr (settled_cleanup id s1)]; exact hoi)⟩
    refine ⟨hY, ?_⟩
    have hZ : InvC (cleanup id (processQueue (cleanup id s1))) := invc_cleanup id hY.1
    have hlZ : live (cleanup id (processQueue (cleanup id s1))) :=
      live_of_liveX_settled (liveX_cleanup id hY.2) (by
        unfold isSettled
        rw [settleLookup_congr (settled_cleanup id _)]
        exact hYset)
    exact inv_processQueue hZ hlZ
  · have hns : isSettled s1 id = false := by
      cases h2 : isSettled s1 id
      · rfl
      · exact absurd h2 hset
    have hX := settle_cleanup_inv h1 hx1 hns (fun t ht => absurd ht (ho t)) hlt
    rw [cleanup_settled_comm] at hX
    rw [show settleMap id o (cleanup id s1) =
      { cleanup id s1 with settled := (id, o) :: (cleanup id s1).settled } from
      settleMap_of_not (by rw [hCset]; exact hns)]
    rw [show ((id, o) :: (cleanup id s1).settled) = ((id, o) :: s1.settled) by
      rw [settled_cleanup]]
    have hY := inv_processQueue hX.1 hX.2
    have hYset : isSettled (processQueue
        { cleanup id s1 with settled := (id, o) :: s1.settled }) id = true := by
      rw [isSettled_true_iff]
      refine ⟨o, settledExt_processQueue _ id o ?_⟩
      rw [settleLookup_update (s := s1) rfl id, if_pos rfl]
    refine ⟨hY, ?_⟩
    have hZ := invc_cleanup id hY.1
    have hlZ : live (cleanup id (processQueue
        { cleanup id s1 with settled := (id, o) :: s1.settled })) :=
      live_of_liveX_settled (liveX_cleanup id hY.2) (by
        unfold isSettled
        rw [settleLookup_congr (settled_cleanup id _)]
        exact hYset)
    exact inv_processQueue hZ hlZ

theorem liveX_of_live {s : QState} (ex : Nat) (h : live s) : liveX ex s :=
  fun j hj _ hset => h j hj hset

theorem bodyThen_inv {s : QState} {j : JobRec} (ok : Bool) (h : InvC s) (hl : live s)
    (hjr : j ∈ s.registry) :
    InvC (bodyThen j ok s) ∧ live (bodyThen j ok s) := by
  have hg : InvC { s with bodyDone := j.id :: s.bodyDone } :=
    invc_congr (s := s) (t := { s with bodyDone := j.id :: s.bodyDone })
      rfl rfl rfl rfl rfl rfl rfl rfl rfl (fun j2 hj2 => ⟨j2, hj2, rfl⟩) h
  have hgl : live { s with bodyDone := j.id :: s.bodyDone } :=
    live_congr (s := s) (t := { s with bodyDone := j.id :: s.bodyDone })
      rfl rfl (fun j2 hj2 => ⟨j2, hj2, rfl⟩) hl
  cases ok with
  | true =>
    simp only [bodyThen, eq_self_iff_true, if_true]
    have h1 := invc_emitE (QEvent.jobSuccess j.id j.startedProcessingAt) hg
    have hx1 := liveX_of_live j.id
      (live_emitE (QEvent.jobSuccess j.id j.startedProcessingAt) hgl)
    have hlt : j.id < (emitE (QEvent.jobSuccess j.id j.startedProcessingAt)
        { s with bodyDone := j.id :: s.bodyDone }).lastId := by
      show j.id < s.lastId
      exact h.regLt j hjr
    have hchain := settle_chain_inv (o := Outcome.success) h1 hx1
      (fun t ht => Outcome.noConfusion ht) hlt
    split
    · exact hchain.1
    · exact hchain.2
  | false =>
    simp only [bodyThen, Bool.false_eq_true, if_false]
    have h1 := invc_emitE (QEvent.jobFailure j.id j.startedProcessingAt) hg
    have hx1 := liveX_of_live j.id
      (live_emitE (QEvent.jobFailure j.id j.startedProcessingAt) hgl)
    have hlt : j.id < (emitE (QEvent.jobFailure j.id j.startedProcessingAt)
        { s with bodyDone := j.id :: s.bodyDone }).lastId := by
      show j.id < s.lastId
      exact h.regLt j hjr
    have hchain := settle_chain_inv (o := Outcome.failure) h1 hx1
      (fun t ht => Outcome.noConfusion ht) hlt
    split
    · exact hchain.1
    · exact hchain.2

theorem settledExt_handleCancel (j : JobRec) (s : QState) :
    SettledExt s (handleCancel j s) := by
  simp only [handleCancel]
  refine settledExt_trans (settledExt_of_eq ?_) (settledExt_settleF _ _ _)
  show (emitE (QEvent.jobCancelEv j.id j.addedToTheQueueAt) (jobCancel j s)).settled = s.settled
  rw [show (emitE (QEvent.jobCancelEv j.id j.addedToTheQueueAt) (jobCancel j s)).settled =
    (jobCancel j s).settled from rfl, settled_jobCancel]

theorem settledExt_queueTimerFire (j : JobRec) (s : QState) :
    SettledExt s (queueTimerFire j s) := by
  simp only [queueTimerFire]
  refine settledExt_trans (settledExt_of_eq ?_) (settledExt_settleF _ _ _)
  show (removeTimeout j.id (emitE (QEvent.queueTimeoutEv j.id j.addedToTheQueueAt) s)).settled
    = s.settled
  rw [settled_removeTimeout]
  rfl

theorem settledExt_execTimerFire (j : JobRec) (s : QState) :
    SettledExt s (execTimerFire j s) := by
  simp only [execTimerFire]
  refine settledExt_trans (settledExt_of_eq ?_) (settledExt_settleF _ _ _)
  show (jobCancel j (emitE (QEvent.jobTimeoutEv j.id j.startedProcessingAt) s)).settled
    = s.settled
  rw [settled_jobCancel]
  rfl

theorem settledExt_bodyThen (j : JobRec) (ok : Bool) (s : QState) :
    SettledExt s (bodyThen j ok s) := by
  cases ok with
  | true =>
    simp only [bodyThen, eq_self_iff_true, if_true]
    have hbase : SettledExt s (settleMap j.id Outcome.success (cleanup j.id
        (emitE (QEvent.jobSuccess j.id j.startedProcessingAt)
          { s with bodyDone := j.id :: s.bodyDone }))) :=
      settledExt_trans (settledExt_of_eq (by simp [settled_cleanup, emitE]))
        (settledExt_settleMap _ _ _)
    split
    · exact settledExt_trans hbase (settledExt_processQueue _)
    · refine settledExt_trans hbase ?_
      refine settledExt_trans (settledExt_processQueue _) ?_
      exact settledExt_trans (settledExt_of_eq (settled_cleanup _ _)) (settledExt_processQueue _)
  | false =>
    simp only [bodyThen, Bool.false_eq_true, if_false]
    have hbase : SettledExt s (settleMap j.id Outcome.failure (cleanup j.id
        (emitE (QEvent.jobFailure j.id j.startedProcessingAt)
          { s with bodyDone := j.id :: s.bodyDone }))) :=
      settledExt_trans (settledExt_of_eq (by simp [settled_cleanup, emitE]))
        (settledExt_settleMap _ _ _)
    split
    · exact settledExt_trans hbase (settledExt_processQueue _)
    · refine settledExt_trans hbase ?_
      refine settledExt_trans (settledExt_processQueue _) ?_
      exact settledExt_trans (settledExt_of_eq (settled_cleanup _ _)) (settledExt_processQueue _)

theorem stepEv_inv (e : Ev) {s : QState} (h : InvC s) (hl : live s) :
    InvC (stepEv e s) ∧ live (stepEv e s) := by
  cases e with
  | add fnB hasHook => exact add_inv fnB hasHook h hl
  | qFire id =>
    simp only [stepEv]
    split
    · next hqt =>
      cases hfj : findJob s id with
      | none => exact ⟨h, hl⟩
      | some j =>
        have hm := findJob_mem hfj
        exact queueTimerFire_inv h hl hm.1 (by rw [hm.2]; exact hqt)
    · exact ⟨h, hl⟩
  | eFire id =>
    simp only [stepEv]
    split
    · next het =>
      cases hfj : findJob s id with
      | none => exact ⟨h, hl⟩
      | some j =>
        have hm := findJob_mem hfj
        exact execTimerFire_inv h hl hm.1
    · exact ⟨h, hl⟩
  | cancel id =>
    simp only [stepEv]
    cases hfj : findJob s id with
    | none => exact ⟨h, hl⟩
    | some j =>
      have hm := findJob_mem hfj
      exact handleCancel_inv h hl hm.1
  | bodySettles id ok =>
    simp only [stepEv]
    cases hfj : findJob s id with
    | none => exact ⟨h, hl⟩
    | some j =>
      have hm := findJob_mem hfj
      show InvC (if j.fnB = FnB.pending ∧ id ∈ s.startedLog ∧ id ∉ s.bodyDone
          then bodyThen j ok s else s) ∧
        live (if j.fnB = FnB.pending ∧ id ∈ s.startedLog ∧ id ∉ s.bodyDone
          then bodyThen j ok s else s)
      split
      · exact bodyThen_inv ok h hl hm.1
      · exact ⟨h, hl⟩
  | cancelFull => exact ⟨h, hl⟩

theorem settledExt_stepEv (e : Ev) (s : QState) : SettledExt s (stepEv e s) := by
  cases e with
  | add fnB hasHook => exact settledExt_add fnB hasHook s
  | qFire id =>
    simp only [stepEv]
    split
    · cases hfj : findJob s id with
      | none => exact settledExt_refl s
      | some j => exact settledExt_queueTimerFire j s
    · exact settledExt_refl s
  | eFire id =>
    simp only [stepEv]
    split
    · cases hfj : findJob s id with
      | none => exact settledExt_refl s
      | some j => exact settledExt_execTimerFire j s
    · exact settledExt_refl s
  | cancel id =>
    simp only [stepEv]
    cases hfj : findJob s id with
    | none => exact settledExt_refl s
    | some j => exact settledExt_handleCancel j s
  | bodySettles id ok =>
    simp only [stepEv]
    cases hfj : findJob s id with
    | none => exact settledExt_refl s
    | some j =>
      show SettledExt s (if j.fnB = FnB.pending ∧ id ∈ s.startedLog ∧ id ∉ s.bodyDone
          then bodyThen j ok s else s)
      split
      · exact settledExt_bodyThen j ok s
      · exact settledExt_refl s
  | cancelFull => exact settledExt_refl s

theorem inv_Queue (a b c d : Nat) : InvC (Queue a b c d) ∧ live (Queue a b c d) := by
  constructor
  · constructor <;> simp [Queue, waitingIds, inProgressIds, isSettled, settleLookup]
  · intro j hj
    simp [Queue] at hj

theorem run_inv_aux : ∀ (evs : List Ev) (s : QState), InvC s → live s →
    InvC (run s evs) ∧ live (run s evs) := by
  intro evs
  induction evs with
  | nil => intro s h hl; exact ⟨h, hl⟩
  | cons e t ih =>
    intro s h hl
    have := stepEv_inv e h hl
    exact ih (stepEv e s) this.1 this.2

theorem run_inv (a b c d : Nat) (evs : List Ev) :
    InvC (run (Queue a b c d) evs) ∧ live (run (Queue a b c d) evs) :=
  run_inv_aux evs (Queue a b c d) (inv_Queue a b c d).1 (inv_Queue a b c d).2

theorem settledExt_run : ∀ (evs : List Ev) (s : QState), SettledExt s (run s evs) := by
  intro evs
  induction evs with
  | nil => intro s; exact settledExt_refl s
  | cons e t ih =>
    intro s
    exact settledExt_trans (settledExt_stepEv e s) (ih (stepEv e s))

/-!
## Configuration constancy

The four construction options are never written after construction. -/

def cfg4 (s : QState) : Nat × Nat × Nat × Nat :=
  (s.queueTimeout, s.executionTimeout, s.concurrency, s.maxTaskCount)

theorem cfg4_removeTimeout (id : Nat) (s : QState) : cfg4 (removeTimeout id s) = cfg4 s := by
  rw [removeTimeout_eq]
  rfl

theorem cfg4_removeJob (id : Nat) (s : QState) : cfg4 (removeJob id s) = cfg4 s := by
  unfold removeJob
  split <;> rfl

theorem cfg4_cleanup (id : Nat) (s : QState) : cfg4 (cleanup id s) = cfg4 s := by
  unfold cleanup
  rw [cfg4_removeJob, cfg4_removeTimeout]

theorem cfg4_settleMap (id : Nat) (o : Outcome) (s : QState) :
    cfg4 (settleMap id o s) = cfg4 s := by
  unfold settleMap
  split <;> rfl

theorem cfg4_promote (jw : JobRec) (rest : List JobRec) (s : QState) :
    cfg4 (promote jw rest s) = cfg4 s := by
  simp [promote, promoteCore, setStarted, setUpProcessingTimeout, setTimer, emitE,
    removeTimeout_eq, cfg4]

theorem cfg4_promoteFail (jw : JobRec) (rest : List JobRec) (s : QState) :
    cfg4 (promoteFail jw rest s) = cfg4 s := by
  have h1 : cfg4 (promoteFail jw rest s) =
      cfg4 (settleMap jw.id Outcome.failure
        (emitE (QEvent.jobFailure jw.id (some 0))
          (emitE (QEvent.jobStarted jw.id jw.addedToTheQueueAt) (promoteCore jw rest s)))) := by
    simp only [promoteFail]
    rw [show ∀ t : QState, cfg4 { t with processing := false } = cfg4 t from fun t => rfl]
    rw [cfg4_cleanup]
  rw [h1, cfg4_settleMap]
  show cfg4 (promoteCore jw rest s) = cfg4 s
  simp [promoteCore, setStarted, setUpProcessingTimeout, setTimer, removeTimeout_eq, cfg4]

theorem cfg4_processQueueAux (fuel : Nat) :
    ∀ s : QState, cfg4 (processQueueAux fuel s) = cfg4 s := by
  induction fuel with
  | zero => intro s; rfl
  | succ n ih =>
    intro s
    unfold processQueueAux
    split
    · rfl
    · split
      · rfl
      · next jw rest hw =>
        split
        · exact cfg4_promote jw rest s
        · rw [ih, cfg4_cleanup, cfg4_promoteFail]

theorem cfg4_processQueue (s : QState) : cfg4 (processQueue s) = cfg4 s :=
  cfg4_processQueueAux _ s

theorem cfg4_settleF (id : Nat) (o : Outcome) (s : QState) :
    cfg4 (settleF id o s) = cfg4 s := by
  unfold settleF
  split
  · rfl
  · rw [cfg4_processQueue, cfg4_cleanup]
    rfl

theorem cfg4_jobCancel (j : JobRec) (s : QState) : cfg4 (jobCancel j s) = cfg4 s := by
  simp only [jobCancel]
  by_cases hh : j.hasHook = true
  · rw [if_pos hh, cfg4_cleanup]
    rfl
  · rw [if_neg hh, cfg4_cleanup]

theorem cfg4_stepEv (e : Ev) (s : QState) : cfg4 (stepEv e s) = cfg4 s := by
  cases e with
  | add fnB hasHook =>
    show cfg4 (add fnB hasHook s).1 = cfg4 s
    by_cases hf : isFull s = true
    · rw [add_full_spec fnB hasHook hf]
      rfl
    · rw [add_nonfull_spec fnB hasHook hf]
      show cfg4 (processQueue (addMid fnB hasHook s)) = cfg4 s
      rw [cfg4_processQueue]
      rfl
  | qFire id =>
    simp only [stepEv]
    split
    · cases hfj : findJob s id with
      | none => rfl
      | some j =>
        show cfg4 (queueTimerFire j s) = cfg4 s
        simp only [queueTimerFire]
        rw [cfg4_settleF, cfg4_removeTimeout]
        rfl
    · rfl
  | eFire id =>
    simp only [stepEv]
    split
    · cases hfj : findJob s id with
      | none => rfl
      | some j =>
        show cfg4 (execTimerFire j s) = cfg4 s
        simp only [execTimerFire]
        rw [cfg4_settleF, cfg4_jobCancel]
        rfl
    · rfl
  | cancel id =>
    simp only [stepEv]
    cases hfj : findJob s id with
    | none => rfl
    | some j =>
      show cfg4 (handleCancel j s) = cfg4 s
      simp only [handleCancel]
      rw [cfg4_settleF]
      show cfg4 (jobCancel j s) = cfg4 s
      rw [cfg4_jobCancel]
  | bodySettles id ok =>
    simp only [stepEv]
    cases hfj : findJob s id with
    | none => rfl
    | some j =>
      show cfg4 (if j.fnB = FnB.pending ∧ id ∈ s.startedLog ∧ id ∉ s.bodyDone
        then bodyThen j ok s else s) = cfg4 s
      split
      · cases ok with
        | true =>
          simp only [bodyThen, eq_self_iff_true, if_true]
          split
          · rw [cfg4_processQueue, cfg4_settleMap, cfg4_cleanup]
            rfl
          · rw [cfg4_processQueue, cfg4_cleanup, cfg4_processQueue, cfg4_settleMap,
              cfg4_cleanup]
            rfl
        | false =>
          simp only [bodyThen, Bool.false_eq_true, if_false]
          split
          · rw [cfg4_processQueue, cfg4_settleMap, cfg4_cleanup]
            rfl
          · rw [cfg4_processQueue, cfg4_cleanup, cfg4_processQueue, cfg4_settleMap,
              cfg4_cleanup]
            rfl
      · rfl
  | cancelFull => rfl

theorem cfg4_run : ∀ (evs : List Ev) (s : QState), cfg4 (run s evs) = cfg4 s := by
  intro evs
  induction evs with
  | nil => intro s; rfl
  | cons e t ih =>
    intro s
    show cfg4 (run (stepEv e s) t) = cfg4 s
    rw [ih, cfg4_stepEv]

theorem concurrency_run (a b c d : Nat) (evs : List Ev) :
    (run (Queue a b c d) evs).concurrency = c := by
  have := cfg4_run evs (Queue a b c d)
  exact congrArg (fun p => p.2.2.1) this

theorem maxTaskCount_run (a b c d : Nat) (evs : List Ev) :
    (run (Queue a b c d) evs).maxTaskCount = d := by
  have := cfg4_run evs (Queue a b c d)
  exact congrArg (fun p => p.2.2.2) this

/-!
## Support lemmas for the claim theorems -/

theorem isSettled_congr {s t : QState} (h : t.settled = s.settled) (id : Nat) :
    isSettled t id = isSettled s id := by
  unfold isSettled
  rw [settleLookup_congr h]

theorem concurrency_cleanup (id : Nat) (s : QState) :
    (cleanup id s).concurrency = s.concurrency :=
  congrArg (fun p => p.2.2.1) (cfg4_cleanup id s)

theorem findJob_of_mem {s : QState} {j : JobRec} (h : j ∈ s.registry) :
    ∃ j2, findJob s j.id = some j2 ∧ j2.id = j.id := by
  unfold findJob
  cases hf : s.registry.find? (fun x => x.id == j.id) with
  | none =>
    rw [List.find?_eq_none] at hf
    exact absurd (by simp) (hf j h)
  | some j2 =>
    exact ⟨j2, rfl, by simpa using List.find?_some hf⟩

theorem queueTimerFire_settles {s : QState} {j : JobRec}
    (hns : isSettled s j.id = false) :
    settleLookup (queueTimerFire j s) j.id =
      some (Outcome.queueTimeout j.addedToTheQueueAt) := by
  simp only [queueTimerFire]
  refine settleF_settles ?_
  rw [isSettled_congr (settled_removeTimeout _ _)]
  exact hns

theorem execTimerFire_settles {s : QState} {j : JobRec}
    (hns : isSettled s j.id = false) :
    settleLookup (execTimerFire j s) j.id = some Outcome.jobTimeout := by
  simp only [execTimerFire]
  refine settleF_settles ?_
  rw [isSettled_congr (settled_jobCancel _ _)]
  exact hns

theorem stepEv_qFire_settles {s : QState} {id : Nat} {j : JobRec}
    (hfj : findJob s id = some j) (hqt : (id, TimerKind.queueT) ∈ s.timeouts)
    (hns : isSettled s id = false) :
    settleLookup (stepEv (Ev.qFire id) s) id =
      some (Outcome.queueTimeout j.addedToTheQueueAt) := by
  simp only [stepEv]
  rw [if_pos hqt, hfj]
  have hjid := (findJob_mem hfj).2
  rw [← hjid] at hns ⊢
  exact queueTimerFire_settles hns

theorem stepEv_eFire_settles {s : QState} {id : Nat} {j : JobRec}
    (hfj : findJob s id = some j) (het : (id, TimerKind.execT) ∈ s.timeouts)
    (hns : isSettled s id = false) :
    settleLookup (stepEv (Ev.eFire id) s) id = some Outcome.jobTimeout := by
  simp only [stepEv]
  rw [if_pos het, hfj]
  have hjid := (findJob_mem hfj).2
  rw [← hjid] at hns ⊢
  exact execTimerFire_settles hns

theorem settleF_of_settled {s : QState} {id : Nat} {o : Outcome}
    (h : isSettled s id = true) : settleF id o s = s := by
  unfold settleF
  rw [if_pos h]

theorem cleanup_noop {s : QState} {id : Nat}
    (hnt : ∀ k, (id, k) ∉ s.timeouts)
    (hw : id ∉ waitingIds s) (hi : id ∉ inProgressIds s) :
    cleanup id s = s := by
  unfold cleanup removeTimeout
  rw [if_neg (by
    intro hx
    obtain ⟨p, hp, hpe⟩ := List.any_eq_true.mp hx
    have hp1 : p.1 = id := by simpa using hpe
    exact hnt p.2 (by rw [← hp1]; exact hp))]
  unfold removeJob
  rw [if_neg (by
    intro hx
    obtain ⟨jj, hjj, hje⟩ := List.any_eq_true.mp hx
    exact hw (List.mem_map.mpr ⟨jj, hjj, by simpa using hje⟩))]
  rw [eraseP_of_forall_not (by
    intro a ha hpa
    exact hi (List.mem_map.mpr ⟨a, ha, by simpa using hpa⟩))]

theorem processQueueAux_conc0 (fuel : Nat) {s : QState} (h : s.concurrency = 0) :
    processQueueAux fuel s = s := by
  cases fuel with
  | zero => rfl
  | succ n =>
    unfold processQueueAux
    rw [if_pos (Or.inl (by rw [h]; exact Nat.zero_le _))]

theorem processQueue_conc0 {s : QState} (h : s.concurrency = 0) : processQueue s = s :=
  processQueueAux_conc0 _ h

theorem processQueue_processing {s : QState} (h : s.processing = true) :
    processQueue s = s := by
  unfold processQueue
  unfold processQueueAux
  rw [if_pos (Or.inr h)]

theorem waitingJobs_promote (jw : JobRec) (rest : List JobRec) (s : QState) :
    (promote jw rest s).waitingJobs = rest := by
  simp [promote, promoteCore, setStarted, setUpProcessingTimeout, setTimer, emitE,
    removeTimeout_eq]

theorem inProgress_len_promote (jw : JobRec) (rest : List JobRec) (s : QState) :
    (promote jw rest s).inProgressJobs.length = s.inProgressJobs.length + 1 := by
  simp [promote, promoteCore, setStarted, setUpProcessingTimeout, setTimer, emitE,
    removeTimeout_eq]

theorem processQueue_promotes_one {s : QState} {jw : JobRec} {rest : List JobRec}
    (hp : s.processing = false) (hlen : s.inProgressJobs.length < s.concurrency)
    (hw : s.waitingJobs = jw :: rest) (hfn : jw.fnB = FnB.pending) :
    processQueue s = promote jw rest s := by
  unfold processQueue
  conv_lhs => unfold processQueueAux
  rw [if_neg (by
    intro hx
    rcases hx with hx | hx
    · exact absurd hlen (Nat.not_lt_of_le hx)
    · rw [hp] at hx
      exact Bool.false_ne_true hx)]
  rw [hw]
  show (match jw.fnB with
    | FnB.pending => promote jw rest s
    | FnB.throwsSync =>
      processQueueAux (jw :: rest).length (cleanup jw.id (promoteFail jw rest s))) =
    promote jw rest s
  rw [hfn]

theorem processQueue_throws_step {s : QState} {jw : JobRec} {rest : List JobRec}
    (hp : s.processing = false) (hlen : s.inProgressJobs.length < s.concurrency)
    (hw : s.waitingJobs = jw :: rest) (hfn : jw.fnB = FnB.throwsSync) :
    processQueue s =
      processQueueAux (jw :: rest).length (cleanup jw.id (promoteFail jw rest s)) := by
  unfold processQueue
  conv_lhs => unfold processQueueAux
  rw [if_neg (by
    intro hx
    rcases hx with hx | hx
    · exact absurd hlen (Nat.not_lt_of_le hx)
    · rw [hp] at hx
      exact Bool.false_ne_true hx)]
  rw [hw]
  show (match jw.fnB with
    | FnB.pending => promote jw rest s
    | FnB.throwsSync =>
      processQueueAux (jw :: rest).length (cleanup jw.id (promoteFail jw rest s))) =
    processQueueAux (jw :: rest).length (cleanup jw.id (promoteFail jw rest s))
  rw [hfn]

theorem pq_pending (fuel : Nat) : ∀ s : QState,
    (∀ j ∈ s.waitingJobs, j.fnB = FnB.pending) →
    (processQueueAux fuel s).waitingJobs.length +
      (processQueueAux fuel s).inProgressJobs.length =
      s.waitingJobs.length + s.inProgressJobs.length ∧
    (∀ j ∈ (processQueueAux fuel s).waitingJobs, j.fnB = FnB.pending) := by
  induction fuel with
  | zero => intro s hall; exact ⟨rfl, hall⟩
  | succ n ih =>
    intro s hall
    unfold processQueueAux
    split
    · exact ⟨rfl, hall⟩
    · split
      · exact ⟨rfl, hall⟩
      · next jw rest hw =>
        have hjw : jw.fnB = FnB.pending := hall jw (by rw [hw]; exact List.mem_cons_self _ _)
        split
        · constructor
          · rw [waitingJobs_promote, inProgress_len_promote, hw]
            simp only [List.length_cons]
            omega
          · intro j hj
            rw [waitingJobs_promote] at hj
            exact hall j (by rw [hw]; exact List.mem_cons_of_mem _ hj)
        · next hfn =>
          rw [hjw] at hfn
          exact absurd hfn (by simp)

theorem inProgress_cleanup_nil {s : QState} {id : Nat} (h : s.inProgressJobs = []) :
    (cleanup id s).inProgressJobs = [] := by
  unfold cleanup removeJob
  rw [removeTimeout_eq]
  split
  · exact h
  · show s.inProgressJobs.eraseP (fun j => j.id == id) = []
    rw [h]
    rfl

theorem settleF_conc0 {s : QState} (id : Nat) (o : Outcome)
    (hc : s.concurrency = 0) (hi : s.inProgressJobs = []) (hlog : s.startedLog = []) :
    (settleF id o s).inProgressJobs = [] ∧ (settleF id o s).startedLog = [] := by
  unfold settleF
  split
  · exact ⟨hi, hlog⟩
  · rw [processQueue_conc0 (by rw [concurrency_cleanup]; exact hc)]
    constructor
    · exact inProgress_cleanup_nil hi
    · rw [startedLog_cleanup]
      exact hlog

theorem jobCancel_conc0 {s : QState} (j : JobRec)
    (hi : s.inProgressJobs = []) (hlog : s.startedLog = []) :
    (jobCancel j s).inProgressJobs = [] ∧ (jobCancel j s).startedLog = [] ∧
      (jobCancel j s).concurrency = s.concurrency := by
  simp only [jobCancel]
  split
  · exact ⟨inProgress_cleanup_nil hi, by rw [startedLog_cleanup]; exact hlog,
      by rw [concurrency_cleanup]⟩
  · exact ⟨inProgress_cleanup_nil hi, by rw [startedLog_cleanup]; exact hlog,
      by rw [concurrency_cleanup]⟩

theorem conc0_stepEv (e : Ev) {s : QState} (h : InvC s)
    (hc : s.concurrency = 0) (hi : s.inProgressJobs = []) (hlog : s.startedLog = []) :
    (stepEv e s).inProgressJobs = [] ∧ (stepEv e s).startedLog = [] := by
  cases e with
  | add fnB hasHook =>
    show (add fnB hasHook s).1.inProgressJobs = [] ∧ (add fnB hasHook s).1.startedLog = []
    by_cases hf : isFull s = true
    · rw [add_full_spec fnB hasHook hf]
      exact ⟨hi, hlog⟩
    · rw [add_nonfull_spec fnB hasHook hf]
      rw [processQueue_conc0 (show (addMid fnB hasHook s).concurrency = 0 from hc)]
      exact ⟨hi, hlog⟩
  | qFire id =>
    simp only [stepEv]
    split
    · cases hfj : findJob s id with
      | none => exact ⟨hi, hlog⟩
      | some j =>
        show (queueTimerFire j s).inProgressJobs = [] ∧ (queueTimerFire j s).startedLog = []
        simp only [queueTimerFire]
        refine settleF_conc0 j.id (Outcome.queueTimeout j.addedToTheQueueAt) ?_ ?_ ?_
        · rw [removeTimeout_eq]
          exact hc
        · rw [inProgressJobs_removeTimeout]
          exact hi
        · rw [removeTimeout_eq]
          exact hlog
    · exact ⟨hi, hlog⟩
  | eFire id =>
    simp only [stepEv]
    rw [if_neg (fun hmem => by
      have hmemI := h.etI id hmem
      rw [show inProgressIds s = [] from by simp [inProgressIds, hi]] at hmemI
      exact List.not_mem_nil id hmemI)]
    exact ⟨hi, hlog⟩
  | cancel id =>
    simp only [stepEv]
    cases hfj : findJob s id with
    | none => exact ⟨hi, hlog⟩
    | some j =>
      show (handleCancel j s).inProgressJobs = [] ∧ (handleCancel j s).startedLog = []
      simp only [handleCancel]
      have hjc := jobCancel_conc0 j hi hlog
      refine settleF_conc0 j.id Outcome.jobCancelled ?_ ?_ ?_
      · show (jobCancel j s).concurrency = 0
        rw [hjc.2.2]
        exact hc
      · exact hjc.1
      · exact hjc.2.1
  | bodySettles id ok =>
    simp only [stepEv]
    cases hfj : findJob s id with
    | none => exact ⟨hi, hlog⟩
    | some j =>
      have hns : id ∉ s.startedLog := by
        rw [hlog]
        exact List.not_mem_nil id
      show ((if j.fnB = FnB.pending ∧ id ∈ s.startedLog ∧ id ∉ s.bodyDone
          then bodyThen j ok s else s).inProgressJobs = [] ∧
        (if j.fnB = FnB.pending ∧ id ∈ s.startedLog ∧ id ∉ s.bodyDone
          then bodyThen j ok s else s).startedLog = [])
      rw [if_neg (fun hx => hns hx.2.1)]
      exact ⟨hi, hlog⟩
  | cancelFull => exact ⟨hi, hlog⟩

theorem conc0_run : ∀ (evs : List Ev) (s : QState), InvC s → live s →
    s.concurrency = 0 → s.inProgressJobs = [] → s.startedLog = [] →
    (run s evs).inProgressJobs = [] ∧ (run s evs).startedLog = [] := by
  intro evs
  induction evs with
  | nil => intro s _ _ _ hi hlog; exact ⟨hi, hlog⟩
  | cons e t ih =>
    intro s h hl hc hi hlog
    have hstep := conc0_stepEv e h hc hi hlog
    have hinv := stepEv_inv e h hl
    have hcc : (stepEv e s).concurrency = s.concurrency :=
      congrArg (fun p => p.2.2.1) (cfg4_stepEv e s)
    exact ih (stepEv e s) hinv.1 hinv.2 (hcc.trans hc) hstep.1 hstep.2

theorem addsPending_spec : ∀ (k : Nat) (s : QState),
    (∀ j ∈ s.waitingJobs, j.fnB = FnB.pending) →
    s.waitingJobs.length + s.inProgressJobs.length + k ≤ s.maxTaskCount →
    (addsPending k s).waitingJobs.length + (addsPending k s).inProgressJobs.length =
      s.waitingJobs.length + s.inProgressJobs.length + k ∧
    (∀ j ∈ (addsPending k s).waitingJobs, j.fnB = FnB.pending) ∧
    (addsPending k s).maxTaskCount = s.maxTaskCount := by
  intro k
  induction k with
  | zero =>
    intro s hall _
    exact ⟨rfl, hall, rfl⟩
  | succ n ih =>
    intro s hall hcap
    have hf : ¬ isFull s = true := by
      simp only [isFull, decide_eq_true_eq]
      omega
    have hAeq : (add FnB.pending false s).1 = processQueue (addMid FnB.pending false s) := by
      rw [add_nonfull_spec FnB.pending false hf]
    have hmidall : ∀ j ∈ (addMid FnB.pending false s).waitingJobs, j.fnB = FnB.pending := by
      intro j hj
      rcases List.mem_append.mp hj with hj1 | hj2
      · exact hall j hj1
      · rw [List.mem_singleton] at hj2
        rw [hj2]
    have key : (add FnB.pending false s).1.waitingJobs.length +
        (add FnB.pending false s).1.inProgressJobs.length =
        s.waitingJobs.length + s.inProgressJobs.length + 1 ∧
        (∀ j ∈ (add FnB.pending false s).1.waitingJobs, j.fnB = FnB.pending) ∧
        (add FnB.pending false s).1.maxTaskCount = s.maxTaskCount := by
      rw [hAeq]
      refine ⟨?_, (pq_pending _ _ hmidall).2, congrArg (fun p => p.2.2.2) (cfg4_processQueue _)⟩
      calc (processQueue (addMid FnB.pending false s)).waitingJobs.length +
          (processQueue (addMid FnB.pending false s)).inProgressJobs.length
          = (addMid FnB.pending false s).waitingJobs.length +
            (addMid FnB.pending false s).inProgressJobs.length := (pq_pending _ _ hmidall).1
        _ = s.waitingJobs.length + s.inProgressJobs.length + 1 := by
            simp only [addMid, List.length_append, List.length_cons, List.length_nil]
            omega
    obtain ⟨k1, k2, k3⟩ := key
    have ih2 := ih (add FnB.pending false s).1 k2 (by rw [k1, k3]; omega)
    simp only [addsPending]
    refine ⟨?_, ih2.2.1, ih2.2.2.trans k3⟩
    rw [ih2.1, k1]
    omega

theorem cancel_after_settled {s : QState} {id : Nat} {j : JobRec}
    (h : InvC s) (hfj : findJob s id = some j) (hset : isSettled s id = true) :
    stepEv (Ev.cancel id) s =
      emitE (QEvent.jobCancelEv j.id j.addedToTheQueueAt)
        (if j.hasHook then { s with hookCalls := j.id :: s.hookCalls } else s) := by
  simp only [stepEv]
  rw [hfj]
  show handleCancel j s = _
  have hjid : j.id = id := (findJob_mem hfj).2
  have hsetj : isSettled s j.id = true := by rw [hjid]; exact hset
  have hsc := h.sc j.id hsetj
  have hnt : ∀ k, (j.id, k) ∉ s.timeouts := by
    intro k hk
    cases k with
    | queueT => exact hsc.1 (h.qtW j.id hk).1
    | execT => exact hsc.2 (h.etI j.id hk)
  simp only [handleCancel, jobCancel]
  by_cases hh : j.hasHook = true
  · rw [if_pos hh]
    rw [cleanup_noop (s := { s with hookCalls := j.id :: s.hookCalls }) hnt hsc.1 hsc.2]
    exact settleF_of_settled
      (s := emitE (QEvent.jobCancelEv j.id j.addedToTheQueueAt)
        { s with hookCalls := j.id :: s.hookCalls }) hsetj
  · rw [if_neg hh]
    rw [cleanup_noop (s := s) hnt hsc.1 hsc.2]
    exact settleF_of_settled
      (s := emitE (QEvent.jobCancelEv j.id j.addedToTheQueueAt) s) hsetj

theorem settled_promoteFail_eq {s : QState} (jw : JobRec) (rest : List JobRec)
    (hns : isSettled s jw.id = false) :
    (promoteFail jw rest s).settled = (jw.id, Outcome.failure) :: s.settled := by
  have he : (emitE (QEvent.jobFailure jw.id (some 0))
      (emitE (QEvent.jobStarted jw.id jw.addedToTheQueueAt) (promoteCore jw rest s))).settled =
      s.settled := by
    simp only [promoteCore, setUpProcessingTimeout, setTimer, setStarted, emitE,
      removeTimeout_eq]
  have hns7 : isSettled (emitE (QEvent.jobFailure jw.id (some 0))
      (emitE (QEvent.jobStarted jw.id jw.addedToTheQueueAt) (promoteCore jw rest s))) jw.id =
      false := by
    rw [isSettled_congr he]
    exact hns
  show (cleanup jw.id (settleMap jw.id Outcome.failure
    (emitE (QEvent.jobFailure jw.id (some 0))
      (emitE (QEvent.jobStarted jw.id jw.addedToTheQueueAt) (promoteCore jw rest s))))).settled = _
  rw [settled_cleanup, settleMap_of_not hns7]
  show (jw.id, Outcome.failure) :: (emitE (QEvent.jobFailure jw.id (some 0))
      (emitE (QEvent.jobStarted jw.id jw.addedToTheQueueAt) (promoteCore jw rest s))).settled = _
  rw [he]

theorem promoteFail_settles {s : QState} {jw : JobRec} {rest : List JobRec}
    (hns : isSettled s jw.id = false) :
    settleLookup (promoteFail jw rest s) jw.id = some Outcome.failure := by
  rw [settleLookup_update (settled_promoteFail_eq jw rest hns) jw.id, if_pos rfl]

theorem syncThrow_settles_failure {s : QState} {jw : JobRec} {rest : List JobRec}
    (hp : s.processing = false) (hlen : s.inProgressJobs.length < s.concurrency)
    (hw : s.waitingJobs = jw :: rest) (hfn : jw.fnB = FnB.throwsSync)
    (hns : isSettled s jw.id = false) :
    settleLookup (processQueue s) jw.id = some Outcome.failure := by
  rw [processQueue_throws_step hp hlen hw hfn]
  refine settledExt_processQueueAux _ _ jw.id Outcome.failure ?_
  rw [settleLookup_congr (settled_cleanup jw.id _) jw.id]
  exact promoteFail_settles hns

theorem addX_ok_of_not_full (st : QEvent → Bool) (fnB : FnB) (hasHook : Bool)
    {s : QState} (hf : ¬ isFull s = true) :
    ∃ r, addX st fnB hasHook s = Except.ok r := by
  simp only [addX]
  rw [if_neg hf]
  split
  · exact ⟨_, rfl⟩
  · split
    · exact ⟨_, rfl⟩
    · exact ⟨_, rfl⟩

theorem handleCancelX_ok (st : QEvent → Bool) (j : JobRec) (s : QState)
    (h : st (QEvent.jobCancelEv j.id j.addedToTheQueueAt) = false) :
    ∃ r, handleCancelX st j s = Except.ok r := by
  have he : emitX st (QEvent.jobCancelEv j.id j.addedToTheQueueAt) (jobCancel j s) =
      Except.ok (emitE (QEvent.jobCancelEv j.id j.addedToTheQueueAt) (jobCancel j s)) := by
    unfold emitX
    rw [if_neg (by rw [h]; exact Bool.false_ne_true)]
  simp only [handleCancelX]
  rw [he]
  exact ⟨_, rfl⟩

theorem emitListeners_all_ok : ∀ ls : List Bool, (∀ b ∈ ls, b = false) →
    emitListeners ls = (ls.length, false) := by
  intro ls
  induction ls with
  | nil => intro _; rfl
  | cons b t ih =>
    intro h
    have hb : b = false := h b (List.mem_cons_self b t)
    subst hb
    show ((emitListeners t).1 + 1, (emitListeners t).2) = ((false :: t).length, false)
    rw [ih (fun x hx => h x (List.mem_cons_of_mem _ hx))]
    rfl

theorem emitListeners_skips : ∀ (ls1 ls2 : List Bool), (∀ b ∈ ls1, b = false) →
    emitListeners (ls1 ++ true :: ls2) = (ls1.length + 1, true) := by
  intro ls1
  induction ls1 with
  | nil => intro ls2 _; rfl
  | cons b t ih =>
    intro ls2 h
    have hb : b = false := h b (List.mem_cons_self b t)
    subst hb
    show ((emitListeners (t ++ true :: ls2)).1 + 1, (emitListeners (t ++ true :: ls2)).2) =
      ((false :: t).length + 1, true)
    rw [ih ls2 (fun x hx => h x (List.mem_cons_of_mem _ hx))]
    rfl

/-!
## The claims -/

/-- Claim C1: exactly-once settlement.  Once an admitted job's handle is
settled with an outcome, every further sequence of events (other timer
firings, cancellation, body settlement — the losing sources) leaves that
outcome unchanged; the settlement ledger of a reachable state never holds
two entries for one job; and an unsettled admitted job always has a timer
armed, so a settling transition stays enabled for it. -/
theorem C1_settle_once (a b c d : Nat) (evs : List Ev) (id : Nat) (o : Outcome)
    (h : settleLookup (run (Queue a b c d) evs) id = some o) :
    (∀ evs2, settleLookup (run (run (Queue a b c d) evs) evs2) id = some o) ∧
    ((run (Queue a b c d) evs).settled.map Prod.fst).Nodup ∧
    (∀ j ∈ (run (Queue a b c d) evs).registry,
       isSettled (run (Queue a b c d) evs) j.id = false →
       (j.id, TimerKind.queueT) ∈ (run (Queue a b c d) evs).timeouts ∨
       (j.id, TimerKind.execT) ∈ (run (Queue a b c d) evs).timeouts) :=
  ⟨fun evs2 => settledExt_run evs2 (run (Queue a b c d) evs) id o h,
   (run_inv a b c d evs).1.nodupS,
   (run_inv a b c d evs).2⟩

/-- Witness for C1: a job cancelled on the default queue stays settled as
cancelled after its queue-wait timer event is injected afterwards. -/
theorem C1_settle_once_witness :
    settleLookup (run (run (Queue 500 250 1 1) [Ev.add FnB.pending false, Ev.cancel 0])
      [Ev.qFire 0]) 0 = some Outcome.jobCancelled :=
  (C1_settle_once 500 250 1 1 [Ev.add FnB.pending false, Ev.cancel 0] 0
    Outcome.jobCancelled (by rfl)).1 [Ev.qFire 0]

/-- Counterexample to C2: on a queue that never promotes
(`concurrency = 0`), cancelling the same admitted job twice invokes the
cancel hook a second time and emits a second `job.cancel` notification,
although the recorded outcome stays the single `jobCancelled`; the spec
says the second cancel performs no action at all. -/
theorem C2_cancel_not_idempotent_cex :
    (run (Queue 500 250 0 5) [Ev.add FnB.pending true, Ev.cancel 0, Ev.cancel 0]).hookCalls =
      [0, 0] ∧
    (run (Queue 500 250 0 5) [Ev.add FnB.pending true, Ev.cancel 0, Ev.cancel 0]).events.count
      (QEvent.jobCancelEv 0 0) = 2 ∧
    settleLookup (run (Queue 500 250 0 5) [Ev.add FnB.pending true, Ev.cancel 0, Ev.cancel 0]) 0 =
      some Outcome.jobCancelled := by
  decide

/-- Claim C2 (amended): calling the handle's `cancel` on an already
settled job of a reachable state raises nothing and leaves the containers,
the timers and the recorded outcome unchanged — but it is not a no-op: it
re-invokes the cancel hook (when one was supplied) and re-emits the
`job.cancel` notification, because `job.cancel` has no settled-state
guard — only the promise settlement itself is idempotent. -/
theorem C2_cancel_after_settled (a b c d : Nat) (evs : List Ev) (id : Nat) (j : JobRec)
    (hfj : findJob (run (Queue a b c d) evs) id = some j)
    (hset : isSettled (run (Queue a b c d) evs) id = true) :
    stepEv (Ev.cancel id) (run (Queue a b c d) evs) =
      emitE (QEvent.jobCancelEv j.id j.addedToTheQueueAt)
        (if j.hasHook then
          { run (Queue a b c d) evs with
            hookCalls := j.id :: (run (Queue a b c d) evs).hookCalls }
         else run (Queue a b c d) evs) :=
  cancel_after_settled (run_inv a b c d evs).1 hfj hset

/-- Witness for C2 (amended): cancelling after the body already settled
the job re-emits the notification and re-invokes the hook. -/
theorem C2_cancel_after_settled_witness :
    stepEv (Ev.cancel 0)
      (run (Queue 500 250 1 1) [Ev.add FnB.pending true, Ev.bodySettles 0 true]) =
      emitE (QEvent.jobCancelEv 0 0)
        { run (Queue 500 250 1 1) [Ev.add FnB.pending true, Ev.bodySettles 0 true] with
          hookCalls := 0 ::
            (run (Queue 500 250 1 1) [Ev.add FnB.pending true, Ev.bodySettles 0 true]).hookCalls } := by
  have h := C2_cancel_after_settled 500 250 1 1 [Ev.add FnB.pending true, Ev.bodySettles 0 true]
    0 { id := 0, fnB := FnB.pending, hasHook := true, addedToTheQueueAt := 0,
        startedProcessingAt := some 0 } (by rfl) (by rfl)
  exact h

/-- Claim C3: settlement and container removal are one atomic step.  In
every reachable state no settled job occupies the waiting queue or the
active set, and a job settled with `QueueTimeout` never appears in the
promotion log — it is never dispatched afterwards. -/
theorem C3_settle_removal_atomic (a b c d : Nat) (evs : List Ev) :
    (∀ id, isSettled (run (Queue a b c d) evs) id = true →
       id ∉ waitingIds (run (Queue a b c d) evs) ∧
       id ∉ inProgressIds (run (Queue a b c d) evs)) ∧
    (∀ id t, settleLookup (run (Queue a b c d) evs) id = some (Outcome.queueTimeout t) →
       id ∉ (run (Queue a b c d) evs).startedLog) :=
  ⟨(run_inv a b c d evs).1.sc, (run_inv a b c d evs).1.qtNS⟩

/-- Witness for C3: a job that timed out in the queue is in no container
and was never promoted. -/
theorem C3_settle_removal_atomic_witness :
    (0 ∉ waitingIds (run (Queue 500 250 0 1) [Ev.add FnB.pending false, Ev.qFire 0]) ∧
     0 ∉ inProgressIds (run (Queue 500 250 0 1) [Ev.add FnB.pending false, Ev.qFire 0])) ∧
    0 ∉ (run (Queue 500 250 0 1) [Ev.add FnB.pending false, Ev.qFire 0]).startedLog :=
  ⟨(C3_settle_removal_atomic 500 250 0 1 [Ev.add FnB.pending false, Ev.qFire 0]).1 0 (by rfl),
   (C3_settle_removal_atomic 500 250 0 1 [Ev.add FnB.pending false, Ev.qFire 0]).2 0 0 (by rfl)⟩

/-- Counterexample to C4: from a state with two free active slots
(`concurrency = 2`, no active job) and two waiting jobs, one invocation of
the dispatcher starts one job and leaves the other waiting — it does not
drain the queue up to capacity as the spec claims. -/
theorem C4_no_drain_cex :
    cexDispatch.processing = false ∧
    cexDispatch.inProgressJobs.length = 0 ∧
    cexDispatch.concurrency = 2 ∧
    cexDispatch.waitingJobs.length = 2 ∧
    (processQueue cexDispatch).inProgressJobs.length = 1 ∧
    (processQueue cexDispatch).waitingJobs.length = 1 := by
  decide

/-- Claim C4 (amended): one invocation of the dispatcher, in a state with
a free active slot and a non-empty waiting queue whose head runs without
throwing, promotes exactly the head job (`promote`), not a drain loop; and
an invocation made while a pass is already running (`processing = true`)
is a no-op. -/
theorem C4_single_promotion (s : QState) (jw : JobRec) (rest : List JobRec)
    (hp : s.processing = false) (hlen : s.inProgressJobs.length < s.concurrency)
    (hw : s.waitingJobs = jw :: rest) (hfn : jw.fnB = FnB.pending) :
    processQueue s = promote jw rest s ∧
    (∀ t : QState, t.processing = true → processQueue t = t) :=
  ⟨processQueue_promotes_one hp hlen hw hfn, fun _ ht => processQueue_processing ht⟩

/-- Witness for C4 (amended): the dispatch-pass equation evaluated on the
two-slot fixture, and the nested-call no-op on the same fixture with the
single-flight flag set. -/
theorem C4_single_promotion_witness :
    processQueue cexDispatch = promote (jobW 0) [jobW 1] cexDispatch ∧
    processQueue { cexDispatch with processing := true } =
      { cexDispatch with processing := true } := by
  have h := C4_single_promotion cexDispatch (jobW 0) [jobW 1] (by rfl) (by decide)
    (by rfl) (by rfl)
  exact ⟨h.1, h.2 { cexDispatch with processing := true } rfl⟩

/-- Claim C5: occupancy bounds hold in every reachable state of every
queue instance: `stats` reports at most `maxTaskCount` jobs in total and
at most `concurrency` jobs in progress. -/
theorem C5_occupancy_bounds (a b c d : Nat) (evs : List Ev) :
    (stats (run (Queue a b c d) evs)).total ≤ d ∧
    (stats (run (Queue a b c d) evs)).inProgress ≤ c := by
  constructor
  · show (run (Queue a b c d) evs).waitingJobs.length +
      (run (Queue a b c d) evs).inProgressJobs.length ≤ d
    have h := (run_inv a b c d evs).1.lenWI
    rwa [maxTaskCount_run] at h
  · show (run (Queue a b c d) evs).inProgressJobs.length ≤ c
    have h := (run_inv a b c d evs).1.lenI
    rwa [concurrency_run] at h

/-- Claim C6: admission rejection when full.  Submitting `maxTaskCount`
pending jobs to a fresh queue fills it to exactly `maxTaskCount` tasks;
the next submission is rejected with `QueueFull` carrying the current
counts; and on any full state `add` only emits `queue.full` and returns
the rejected handle — no job is created, no id consumed, nothing pushed to
`waiting`, no timer armed (the state is unchanged but for the logged
notification). -/
theorem C6_full_rejection (a b c d : Nat) :
    (stats (addsPending d (Queue a b c d))).total = d ∧
    (add FnB.pending false (addsPending d (Queue a b c d))).2 =
      AddRes.rejectedFull (addsPending d (Queue a b c d)).waitingJobs.length
        (addsPending d (Queue a b c d)).inProgressJobs.length ∧
    (∀ (s : QState) (fnB : FnB) (hasHook : Bool), isFull s = true →
       add fnB hasHook s =
         (emitE (QEvent.queueFull s.waitingJobs.length s.inProgressJobs.length) s,
          AddRes.rejectedFull s.waitingJobs.length s.inProgressJobs.length)) := by
  have hs := addsPending_spec d (Queue a b c d)
    (by intro j hj; simp [Queue] at hj) (by simp [Queue])
  have htot : (addsPending d (Queue a b c d)).waitingJobs.length +
      (addsPending d (Queue a b c d)).inProgressJobs.length = d := by
    have h1 := hs.1
    simpa [Queue] using h1
  have hmax : (addsPending d (Queue a b c d)).maxTaskCount = d := by
    have h3 := hs.2.2
    simpa [Queue] using h3
  have hfull : isFull (addsPending d (Queue a b c d)) = true := by
    simp only [isFull, decide_eq_true_eq, ge_iff_le]
    rw [htot, hmax]
  refine ⟨?_, ?_, ?_⟩
  · show (addsPending d (Queue a b c d)).waitingJobs.length +
      (addsPending d (Queue a b c d)).inProgressJobs.length = d
    exact htot
  · rw [add_full_spec FnB.pending false hfull]
  · intro s fnB hasHook hf
    exact add_full_spec fnB hasHook hf

/-- Witness for C6: the rejection equation evaluated on the full default
queue after one admission. -/
theorem C6_full_rejection_witness :
    add FnB.pending false fullState1 =
      (emitE (QEvent.queueFull fullState1.waitingJobs.length
        fullState1.inProgressJobs.length) fullState1,
       AddRes.rejectedFull fullState1.waitingJobs.length
         fullState1.inProgressJobs.length) :=
  (C6_full_rejection 500 250 1 1).2.2 fullState1 FnB.pending false (by rfl)

/-- Counterexample to C7, one conjunct per refuted clause: a throwing
`queue.full` subscriber's exception escapes `add` (that emission is
outside every protection); a throwing `job.cancel` subscriber's exception
escapes the handle's `cancel` (that emission is equally unprotected, after
the hook and cleanup already ran and before the `reject`, so the job is
left removed but unsettled); a throwing `job.failure` subscriber's
exception escapes the dispatcher's `catch` block with the single-flight
flag still `true`, so the subscriber's failure does change queue state and
the dispatcher does not continue; and a throwing subscriber prevents the
later-registered subscriber of the same event from being notified. -/
theorem C7_subscriber_throw_escapes_cex :
    addX stQueueFullThrows FnB.pending false fullState1 =
      Except.error (emitE (QEvent.queueFull 0 1) fullState1) ∧
    handleCancelX stJobCancelThrows (jobW 0)
      (run (Queue 500 250 0 1) [Ev.add FnB.pending false]) =
      Except.error (emitE (QEvent.jobCancelEv 0 0)
        (jobCancel (jobW 0) (run (Queue 500 250 0 1) [Ev.add FnB.pending false]))) ∧
    processQueueXAux stJobFailureThrows (cexThrow.waitingJobs.length + 1) cexThrow =
      Except.error (emitE (QEvent.jobFailure 0 (some 0))
        (emitE (QEvent.jobStarted 0 0) (promoteCore (jobT 0) [] cexThrow))) ∧
    (emitE (QEvent.jobFailure 0 (some 0))
      (emitE (QEvent.jobStarted 0 0) (promoteCore (jobT 0) [] cexThrow))).processing = true ∧
    emitListeners [true, false] = (1, true) :=
  ⟨rfl, rfl, rfl, rfl, rfl⟩

/-- Claim C7 (amended): exception containment is per call site, not
universal.  What holds: a non-full `add` returns normally even when
subscribers throw or the body raises synchronously when started (the
`queue.new` emission and the dispatch run inside the promise executor);
`stats` performs no emission and cannot throw; the handle's `cancel`
returns normally whenever the `job.cancel` subscriber does not throw; a
synchronous body fault settles only the affected job as a failure and the
dispatcher continues with the rest of the queue (on the concrete trace the
following pending job is promoted); and a throwing listener still leaves
every listener registered before it notified — when no listener throws,
all of them are.  What fails (the counterexample): the `queue.full` and
`job.cancel` emissions are unprotected, a throwing `job.failure`
subscriber escapes the dispatcher with `processing` stuck `true`, and
listeners registered after a throwing one are skipped. -/
theorem C7_no_escape_corrected :
    (∀ (st : QEvent → Bool) (fnB : FnB) (hasHook : Bool) (s : QState),
       ¬ isFull s = true → ∃ r, addX st fnB hasHook s = Except.ok r) ∧
    (∀ (st : QEvent → Bool) (s : QState), statsX st s = Except.ok (stats s)) ∧
    (∀ (st : QEvent → Bool) (j : JobRec) (s : QState),
       st (QEvent.jobCancelEv j.id j.addedToTheQueueAt) = false →
       ∃ r, handleCancelX st j s = Except.ok r) ∧
    (∀ (s : QState) (jw : JobRec) (rest : List JobRec),
       s.processing = false → s.inProgressJobs.length < s.concurrency →
       s.waitingJobs = jw :: rest → jw.fnB = FnB.throwsSync →
       isSettled s jw.id = false →
       settleLookup (processQueue s) jw.id = some Outcome.failure) ∧
    settleLookup (run (Queue 500 250 1 5)
      [Ev.add FnB.throwsSync false, Ev.add FnB.pending false]) 0 =
      some Outcome.failure ∧
    inProgressIds (run (Queue 500 250 1 5)
      [Ev.add FnB.throwsSync false, Ev.add FnB.pending false]) = [1] ∧
    (∀ ls : List Bool, (∀ b ∈ ls, b = false) →
       emitListeners ls = (ls.length, false)) ∧
    (∀ ls1 ls2 : List Bool, (∀ b ∈ ls1, b = false) →
       emitListeners (ls1 ++ true :: ls2) = (ls1.length + 1, true)) := by
  refine ⟨?_, fun st s => rfl, ?_, ?_, by rfl, by rfl, ?_, ?_⟩
  · intro st fnB hasHook s hf
    exact addX_ok_of_not_full st fnB hasHook hf
  · intro st j s h
    exact handleCancelX_ok st j s h
  · intro s jw rest hp hlen hw hfn hns
    exact syncThrow_settles_failure hp hlen hw hfn hns
  · exact emitListeners_all_ok
  · exact emitListeners_skips

/-- Witness for C7 (amended): a non-full `add` with a throwing subscriber
set still returns; `stats` returns its snapshot under throwing
subscribers; `cancel` returns when the `job.cancel` subscriber does not
throw; a synchronously-throwing head job is settled as a failure by one
dispatch pass; and the listener-delivery facts at concrete lists. -/
theorem C7_no_escape_corrected_witness :
    (∃ r, addX stQueueFullThrows FnB.pending false (Queue 500 250 1 1) = Except.ok r) ∧
    statsX stQueueFullThrows fullState1 = Except.ok (stats fullState1) ∧
    (∃ r, handleCancelX stQueueFullThrows (jobW 0)
      (run (Queue 500 250 0 1) [Ev.add FnB.pending false]) = Except.ok r) ∧
    settleLookup (processQueue cexThrow) 0 = some Outcome.failure ∧
    emitListeners [false, false] = (2, false) ∧
    emitListeners [false, true, false] = (2, true) :=
  ⟨C7_no_escape_corrected.1 stQueueFullThrows FnB.pending false (Queue 500 250 1 1)
    (by decide),
   C7_no_escape_corrected.2.1 stQueueFullThrows fullState1,
   C7_no_escape_corrected.2.2.1 stQueueFullThrows (jobW 0)
    (run (Queue 500 250 0 1) [Ev.add FnB.pending false]) (by rfl),
   C7_no_escape_corrected.2.2.2.1 cexThrow (jobT 0) [] (by rfl) (by decide) (by rfl)
    (by rfl) (by rfl),
   C7_no_escape_corrected.2.2.2.2.2.2.1 [false, false] (by decide),
   C7_no_escape_corrected.2.2.2.2.2.2.2 [false] [false] (by decide)⟩

/-- Claim C8: strict FIFO dispatch.  In every reachable state the
promotion log followed by the waiting queue is strictly increasing in job
id (ids are assigned in admission order): jobs are promoted in admission
order and no waiting job precedes, in admission order, any job already
promoted. -/
theorem C8_fifo_dispatch (a b c d : Nat) (evs : List Ev) :
    List.Pairwise (· < ·)
      ((run (Queue a b c d) evs).startedLog ++ waitingIds (run (Queue a b c d) evs)) :=
  (run_inv a b c d evs).1.sortedSW

/-- Claim C9: zero concurrency is valid and starves dispatch.  With
`concurrency = 0` no event sequence ever makes the active set or the
promotion log non-empty; every admitted unsettled job sits in the waiting
queue with its queue-wait timer armed, and when that timer fires the job
settles with `QueueTimeout`. -/
theorem C9_zero_concurrency_starves (a b d : Nat) (evs : List Ev) :
    (run (Queue a b 0 d) evs).inProgressJobs = [] ∧
    (run (Queue a b 0 d) evs).startedLog = [] ∧
    (∀ j ∈ (run (Queue a b 0 d) evs).registry,
       isSettled (run (Queue a b 0 d) evs) j.id = false →
       j.id ∈ waitingIds (run (Queue a b 0 d) evs)) ∧
    (∀ (id : Nat) (j : JobRec), findJob (run (Queue a b 0 d) evs) id = some j →
       (id, TimerKind.queueT) ∈ (run (Queue a b 0 d) evs).timeouts →
       isSettled (run (Queue a b 0 d) evs) id = false →
       settleLookup (stepEv (Ev.qFire id) (run (Queue a b 0 d) evs)) id =
         some (Outcome.queueTimeout j.addedToTheQueueAt)) := by
  have hinv := run_inv a b 0 d evs
  have hc0 := conc0_run evs (Queue a b 0 d) (inv_Queue a b 0 d).1 (inv_Queue a b 0 d).2
    rfl rfl rfl
  refine ⟨hc0.1, hc0.2, ?_, ?_⟩
  · intro j hj hns
    rcases hinv.2 j hj hns with hq | he
    · exact (hinv.1.qtW j.id hq).1
    · exfalso
      have hmem := hinv.1.etI j.id he
      rw [show inProgressIds (run (Queue a b 0 d) evs) = [] from by
        simp [inProgressIds, hc0.1]] at hmem
      exact List.not_mem_nil _ hmem
  · intro id j hfj hqt hns
    exact stepEv_qFire_settles hfj hqt hns

/-- Witness for C9: on a `concurrency = 0` queue an admitted job's
queue-wait timer firing settles it with `QueueTimeout`. -/
theorem C9_zero_concurrency_starves_witness :
    settleLookup (stepEv (Ev.qFire 0) (run (Queue 500 250 0 1) [Ev.add FnB.pending false])) 0 =
      some (Outcome.queueTimeout 0) := by
  have h := (C9_zero_concurrency_starves 500 250 1 [Ev.add FnB.pending false]).2.2.2 0
    (jobW 0) (by rfl) (by decide) (by rfl)
  exact h

/-- Claim C10: calling `cancel` on the handle of a submission rejected
with `QueueFull` is a pure no-op in every queue state: its cancel control
is the empty function, so no hook runs, nothing is emitted, no container
or timer changes and nothing is raised. -/
theorem C10_full_handle_cancel_noop (s : QState) :
    stepEv Ev.cancelFull s = s ∧ fullHandleCancel s = s :=
  ⟨rfl, rfl⟩

end TaskQueue
